import Mathlib

/-!
Verification development for the td group-call coordination core.

Shallow embedding of:
* `src/td/telegram/StarManager.cpp` (`get_star_withdrawal_url`),
* `src/td/telegram/GroupCallManager.h` (constants, generation counters and the
  operations of the group-call manager; the implementation file of the manager
  is not part of the source tree, so its behaviour is modelled from the
  specification where indicated),
* `src/tdutils/td/utils/FlatHashMap.h` (`FlatHashMapImpl`: open addressing with
  linear probing and backward-shift deletion).
-/

set_option maxHeartbeats 1000000

namespace Td

/-! ## StarManager (`src/td/telegram/StarManager.cpp`) -/

/-- Dialog categories distinguished by `DialogId::get_type()` in the switch of
`StarManager::get_star_withdrawal_url`.  `Chat`, `SecretChat` and `NoDialog`
all fall into the `default` branch of the source. -/
inductive DialogKind
  | User
  | Chat
  | Channel
  | SecretChat
  | NoDialog
deriving DecidableEq, Repr

/-- Environment of the collaborators queried synchronously by
`StarManager::get_star_withdrawal_url`: the dialog access check, the
user-manager bot lookup and the chat-manager channel lookups. -/
structure StarEnv where
  /-- Result of `DialogManager::check_dialog_access`; `some (code, message)`
  means the check fails with that status. -/
  accessError : Option (Nat × String)
  /-- `UserManager::is_user_bot` for the dialog's user. -/
  isUserBot : Bool
  /-- `ChatManager::is_broadcast_channel` for the dialog's channel. -/
  isBroadcastChannel : Bool
  /-- `get_channel_permissions(channel_id).is_creator()`. -/
  isChannelCreator : Bool
deriving DecidableEq, Repr

/-- Outcome of the synchronous part of `get_star_withdrawal_url`.  An `error`
outcome completes the caller's promise at once; `passwordCheck` hands the
password to the `PasswordManager`, and only that continuation may later send a
network query (`GetStarsRevenueWithdrawalUrlQuery`). -/
inductive StarOutcome
  | error (code : Nat) (message : String)
  | passwordCheck (password : String)
deriving DecidableEq, Repr

/-- Embedding of `StarManager::get_star_withdrawal_url`
(`src/td/telegram/StarManager.cpp:247-285`): access check, the dialog-type
switch, then the empty-password check, in source order. -/
def get_star_withdrawal_url (env : StarEnv) (kind : DialogKind) (password : String) :
    StarOutcome :=
  match env.accessError with
  | some (code, message) => .error code message
  | none =>
    match kind with
    | .User =>
      if !env.isUserBot then .error 400 "User is not a bot"
      else if password.isEmpty then .error 400 "PASSWORD_HASH_INVALID"
      else .passwordCheck password
    | .Channel =>
      if !env.isBroadcastChannel then .error 400 "Chat is not a channel"
      else if !env.isChannelCreator then .error 400 "Not enough rights to withdraw stars"
      else if password.isEmpty then .error 400 "PASSWORD_HASH_INVALID"
      else .passwordCheck password
    | _ =>
      .error 400 "Unallowed chat specified"

/-! ## GroupCallManager constants (`src/td/telegram/GroupCallManager.h`) -/

/-- `RECENT_SPEAKER_TIMEOUT = 60 * 60` (`GroupCallManager.h:122`). -/
def RECENT_SPEAKER_TIMEOUT : Nat := 60 * 60

/-- `MAX_TITLE_LENGTH = 64` (`GroupCallManager.h:125`). -/
def MAX_TITLE_LENGTH : Nat := 64

/-! ## Recent speakers -/

/-- Recent-speaker ring of one call: identities with the date at which they
last spoke, newest first (`GroupCallRecentSpeakers`). -/
structure GroupCallRecentSpeakers where
  users : List (Nat × Nat)
deriving DecidableEq, Repr

/-- Modelled from the spec: `get_recent_speakers` is declared in
`GroupCallManager.h:286` but its body is not in the source tree.  The spec
says recent-speaker entries are pruned by a 1-hour decay window, so the
snapshot keeps exactly the entries whose last-spoke date is at most
`RECENT_SPEAKER_TIMEOUT` seconds old. -/
def get_recent_speakers (now : Nat) (rs : GroupCallRecentSpeakers) : List (Nat × Nat) :=
  rs.users.filter (fun u => now ≤ u.2 + RECENT_SPEAKER_TIMEOUT)

/-! ## Group-call title -/

/-- Outcome of the local validation of `set_group_call_title`. -/
inductive TitleOutcome
  | invalidArgument (message : String)
  | dispatched (title : String)
deriving DecidableEq, Repr

/-- Modelled from the spec: `set_group_call_title` is declared in
`GroupCallManager.h:67` but its body is not in the source tree.  The spec
says the 64-code-point limit (`MAX_TITLE_LENGTH`) is validated locally before
dispatch and an over-long title is an `InvalidArgument` error reported
synchronously.  A Lean `String.length` counts code points. -/
def set_group_call_title (title : String) : TitleOutcome :=
  if title.length > MAX_TITLE_LENGTH then .invalidArgument "Title is too long"
  else .dispatched title

/-! ## Join/leave state machine -/

/-- Join states of one call, per spec section 4.4:
`NotJoined -> Joining -> Joined -> Leaving -> NotJoined`. -/
inductive JoinState
  | notJoined
  | joining (generation : Nat)
  | joined (audioSource : Int)
  | leaving
deriving DecidableEq, Repr

/-- One in-flight join per call (`PendingJoinRequest`,
`GroupCallManager.h:120,324`): generation and requested audio source. -/
structure PendingJoinRequest where
  generation : Nat
  audioSource : Int
deriving DecidableEq, Repr

/-- Call-local state relevant to the join/leave machine.  The
`outboundJoinRequests` and `outboundLeaveRequests` fields count the requests
handed to the transport, so that "no second request is sent" is observable. -/
structure CallState where
  joinState : JoinState
  pendingJoinRequest : Option PendingJoinRequest
  joinGenerationCounter : Nat
  outboundJoinRequests : Nat
  outboundLeaveRequests : Nat
  heartbeatArmed : Bool
deriving DecidableEq, Repr

/-- Result returned synchronously by `join_group_call`. -/
inductive JoinOutcome
  | rejoined (audioSource : Int)
  | alreadyInProgress
  | dispatched (generation : Nat)
deriving DecidableEq, Repr

/-- Modelled from the spec: `join_group_call` is declared in
`GroupCallManager.h:63-65` but its body is not in the source tree.  Per spec
section 4.4, a join fails immediately when the call is `Joining` (error) and
is an idempotent no-op returning the existing audio source when `Joined`;
otherwise it allocates a new generation, records the single
`PendingJoinRequest` and dispatches exactly one request. -/
def join_group_call (s : CallState) (audioSource : Int) : CallState × JoinOutcome :=
  match s.joinState with
  | .joined existing => (s, .rejoined existing)
  | .joining _ => (s, .alreadyInProgress)
  | _ =>
    let generation := s.joinGenerationCounter + 1
    ({ s with
        joinState := .joining generation
        pendingJoinRequest := some ⟨generation, audioSource⟩
        joinGenerationCounter := generation
        outboundJoinRequests := s.outboundJoinRequests + 1 },
      .dispatched generation)

/-- Transport outcomes that can terminate a leave request: a success reply, a
typed failure, or the liveness timeout when the transport never responds. -/
inductive LeaveOutcome
  | success
  | failure
  | timeout
deriving DecidableEq, Repr

/-- Modelled from the spec: `leave_group_call` is declared in
`GroupCallManager.h:94` but its body is not in the source tree.  Per spec
section 4.4 it moves the call to `Leaving`, cancels the heartbeat and
dispatches one leave request; a leave of a call that is not joined is a
synchronous no-op that stays `NotJoined`. -/
def leave_group_call (s : CallState) : CallState :=
  match s.joinState with
  | .notJoined => { s with joinState := .notJoined }
  | _ =>
    { s with
        joinState := .leaving
        pendingJoinRequest := none
        heartbeatArmed := false
        outboundLeaveRequests := s.outboundLeaveRequests + 1 }

/-- Modelled from the spec: `on_group_call_left` is declared in
`GroupCallManager.h:258` but its body is not in the source tree.  Per spec
section 4.4 the completion, the failure and the timeout of a leave all drive
`Leaving` to `NotJoined` regardless of the transport outcome. -/
def on_group_call_left (s : CallState) (_outcome : LeaveOutcome) : CallState :=
  match s.joinState with
  | .leaving => { s with joinState := .notJoined }
  | .notJoined => s
  | _ => s

/-! ## Generation ledger

The header (`GroupCallManager.h:327-333`) declares four manager-wide
generation counters for the generation-checked mutations:
`toggle_recording_generation_`, `toggle_is_muted_generation_`,
`set_volume_level_generation_` and `toggle_is_hand_raised_generation_`
(plus `join_group_request_generation_` for joins).  The mutation kinds below
are exactly the kinds whose response handlers carry a `generation` argument
in the header; `on_toggle_group_call_mute_new_participants`
(`GroupCallManager.h:241-242`) carries none. -/

/-- Mutation kinds whose responses are generation-checked, per the
`uint64 ..._generation_` fields of `GroupCallManager.h:327-333`. -/
inductive MutationKind
  | recordingToggle
  | participantMute
  | participantVolume
  | participantHandRaise
deriving DecidableEq, Repr

/-- Key of a generation-checked operation: the call and, for the
participant-scoped kinds, the target participant. -/
structure MutationKey where
  call : Nat
  target : Option Nat
  kind : MutationKind
deriving DecidableEq, Repr

/-- Generation machinery of the manager.  The four counter fields embed the
manager-wide `uint64` fields of `GroupCallManager.h:327-333`; `latestGen`
models the per-operation storage of the most recently issued generation (kept
in the pending fields of the call/participant records), and `localState` the
mutable local value a confirmed response would apply. -/
structure GenLedger (α : Type) where
  toggle_recording_generation : Nat
  toggle_is_muted_generation : Nat
  set_volume_level_generation : Nat
  toggle_is_hand_raised_generation : Nat
  latestGen : MutationKey → Option Nat
  localState : MutationKey → α

/-- Counter field selected by a mutation kind. -/
def counterOf (s : GenLedger α) : MutationKind → Nat
  | .recordingToggle => s.toggle_recording_generation
  | .participantMute => s.toggle_is_muted_generation
  | .participantVolume => s.set_volume_level_generation
  | .participantHandRaise => s.toggle_is_hand_raised_generation

/-- Modelled from the spec: the bodies of the mutation initiators (for example
`toggle_group_call_recording`, `GroupCallManager.h:78`) are not in the source
tree.  Per spec section 4.3 step 2, issuing a mutation increments the kind's
manager-wide counter (a single `uint64` field in the header), records the new
value as the latest generation for the operation's key, and captures it for
the dispatched request. -/
def issueGeneration (s : GenLedger α) (key : MutationKey) : GenLedger α × Nat :=
  match key.kind with
  | .recordingToggle =>
    let g := s.toggle_recording_generation + 1
    ({ s with toggle_recording_generation := g
              latestGen := fun k => if k = key then some g else s.latestGen k }, g)
  | .participantMute =>
    let g := s.toggle_is_muted_generation + 1
    ({ s with toggle_is_muted_generation := g
              latestGen := fun k => if k = key then some g else s.latestGen k }, g)
  | .participantVolume =>
    let g := s.set_volume_level_generation + 1
    ({ s with set_volume_level_generation := g
              latestGen := fun k => if k = key then some g else s.latestGen k }, g)
  | .participantHandRaise =>
    let g := s.toggle_is_hand_raised_generation + 1
    ({ s with toggle_is_hand_raised_generation := g
              latestGen := fun k => if k = key then some g else s.latestGen k }, g)

/-- Issue generations for a whole list of keys in order. -/
def issueAll (s : GenLedger α) : List MutationKey → GenLedger α
  | [] => s
  | key :: rest => issueAll (issueGeneration s key).1 rest

/-- Modelled from the spec: the response handlers
(`on_toggle_group_call_recording`, `GroupCallManager.h:247`;
`on_set_group_call_participant_volume_level`, `GroupCallManager.h:252-253`;
and the other generation-carrying handlers) are not in the source tree.  Per
spec section 4.3 step 3, the handler compares the captured generation with
the latest issued one for the key; a stale response is silently discarded
without touching local state, a current one applies the confirmed value. -/
def onMutationResponse (s : GenLedger α) (key : MutationKey) (generation : Nat)
    (confirmed : α) : GenLedger α :=
  if s.latestGen key = some generation then
    { s with localState := fun k => if k = key then confirmed else s.localState k }
  else
    s

/-- Initial ledger: all four counters start at `0`
(`GroupCallManager.h:327-333` initialize every `uint64` field to `0`),
no generation issued yet. -/
def initialGenLedger : GenLedger Bool :=
  { toggle_recording_generation := 0
    toggle_is_muted_generation := 0
    set_volume_level_generation := 0
    toggle_is_hand_raised_generation := 0
    latestGen := fun _ => none
    localState := fun _ => false }

/-! ## Participant reconciliation -/

/-- One participant's local record: the payload confirmed by the server
(volume, mute flags, ... are opaque here). -/
structure Participant where
  data : Nat
deriving DecidableEq, Repr

/-- One entry of a server-pushed participant batch: either an update/add of
the identity's record or a removal (a "left" marker; the server never removes
by omission, spec section 4.2). -/
structure ParticipantUpdate where
  dialogId : Nat
  isLeft : Bool
  data : Participant
deriving DecidableEq, Repr

/-- A delta is the batch of participant updates carried by one push update. -/
abbrev Delta := List ParticipantUpdate

/-- Association-list upsert keyed by dialog id, keeping the list order of an
existing entry. -/
def upsertParticipant (l : List (Nat × Participant)) (id : Nat) (p : Participant) :
    List (Nat × Participant) :=
  match l with
  | [] => [(id, p)]
  | (id', p') :: rest =>
    if id' = id then (id, p) :: rest else (id', p') :: upsertParticipant rest id p

/-- Apply one participant update: removal on a "left" marker, upsert
otherwise (spec section 4.2). -/
def applyParticipantUpdate (l : List (Nat × Participant)) (u : ParticipantUpdate) :
    List (Nat × Participant) :=
  if u.isLeft then l.filter (fun e => e.1 ≠ u.dialogId)
  else upsertParticipant l u.dialogId u.data

/-- Merge a whole delta into the participant mapping. -/
def mergeDelta (l : List (Nat × Participant)) (d : Delta) : List (Nat × Participant) :=
  d.foldl applyParticipantUpdate l

/-- Per-call participant collection (`GroupCallParticipants`,
`GroupCallManager.h:118,315`): the mapping, the last applied version, the
queue of buffered out-of-order deltas keyed by version, the debounced-resync
flag (`sync_participants_timeout_`, `GroupCallManager.h:339`) and a counter
of resync requests actually issued. -/
structure GroupCallParticipants where
  participants : List (Nat × Participant)
  version : Nat
  pendingVersionUpdates : List (Nat × Delta)
  syncArmed : Bool
  syncRequestsSent : Nat
deriving DecidableEq, Repr

/-- Look up a buffered delta by version. -/
def pendingLookup (pending : List (Nat × Delta)) (v : Nat) : Option Delta :=
  match pending.find? (fun e => e.1 = v) with
  | some e => some e.2
  | none => none

/-- Remove the buffered delta of a version. -/
def pendingErase (pending : List (Nat × Delta)) (v : Nat) : List (Nat × Delta) :=
  pending.filter (fun e => e.1 ≠ v)

/-- Modelled from the spec: the body of
`process_pending_group_call_participant_updates` (`GroupCallManager.h:188`)
is not in the source tree.  Per spec section 4.2, after a contiguous merge the
buffered deltas whose versions have become contiguous are flushed in
ascending order. -/
def flushPending (st : GroupCallParticipants) : Nat → GroupCallParticipants
  | 0 => st
  | fuel + 1 =>
    match pendingLookup st.pendingVersionUpdates (st.version + 1) with
    | none => st
    | some d =>
      flushPending
        { st with
            participants := mergeDelta st.participants d
            version := st.version + 1
            pendingVersionUpdates := pendingErase st.pendingVersionUpdates (st.version + 1) }
        fuel

/-- Modelled from the spec: the body of `on_update_group_call_participants`
(`GroupCallManager.h:109-111`) is not in the source tree.  Per spec section
4.2: a delta with `version <= last_applied` is discarded as a duplicate; a
delta with `version = last_applied + 1` is merged immediately and the buffer
is flushed; a gapped delta is buffered (first delivery of a version wins) and
a debounced resync is scheduled (`on_receive_group_call_version`,
`GroupCallManager.h:264`; at most one timeout is pending per call). -/
def on_update_group_call_participants (st : GroupCallParticipants) (v : Nat) (d : Delta) :
    GroupCallParticipants :=
  if v ≤ st.version then st
  else if v = st.version + 1 then
    flushPending
      { st with participants := mergeDelta st.participants d, version := v }
      st.pendingVersionUpdates.length
  else
    let st' :=
      if (pendingLookup st.pendingVersionUpdates v).isSome then st
      else { st with pendingVersionUpdates := st.pendingVersionUpdates ++ [(v, d)] }
    { st' with syncArmed := true }

/-- Process a list of delta deliveries in arrival order. -/
def runDeliveries (st : GroupCallParticipants) : List (Nat × Delta) → GroupCallParticipants
  | [] => st
  | (v, d) :: rest => runDeliveries (on_update_group_call_participants st v d) rest

/-- Modelled from the spec: the body of `on_sync_participants_timeout`
(`GroupCallManager.h:148`) is not in the source tree.  When the debounced
resync timeout fires it issues a single `sync_group_call_participants`
request and disarms itself. -/
def on_sync_participants_timeout (st : GroupCallParticipants) : GroupCallParticipants :=
  if st.syncArmed then
    { st with syncArmed := false, syncRequestsSent := st.syncRequestsSent + 1 }
  else st

/-- Keep the first delivery of each version, dropping later duplicates. -/
def dedupByVersion : List (Nat × Delta) → List (Nat × Delta)
  | [] => []
  | (v, d) :: rest =>
    (v, d) :: (dedupByVersion rest).filter (fun e => e.1 ≠ v)

/-- Insert one delivery into a version-sorted list. -/
def insertByVersion (e : Nat × Delta) : List (Nat × Delta) → List (Nat × Delta)
  | [] => [e]
  | f :: rest => if e.1 ≤ f.1 then e :: f :: rest else f :: insertByVersion e rest

/-- Sort deliveries by ascending version (insertion sort, stable). -/
def sortByVersion : List (Nat × Delta) → List (Nat × Delta)
  | [] => []
  | e :: rest => insertByVersion e (sortByVersion rest)

/-- The delivery sequence of the specification's right-hand side: the same
deltas sorted by ascending version with duplicate versions removed. -/
def sortedDedup (ds : List (Nat × Delta)) : List (Nat × Delta) :=
  sortByVersion (dedupByVersion ds)

/-- First delivered delta of a version in a delivery sequence. -/
def firstDelta (ds : List (Nat × Delta)) (v : Nat) : Option Delta :=
  pendingLookup ds v

/-- Versions delivered in a sequence. -/
def deliveredVersions (ds : List (Nat × Delta)) : List Nat := ds.map (·.1)

/-- Contiguity hypothesis of the order-independence property: the delivered
versions above the initial version `v0` are downward closed, i.e. form the
contiguous range `v0+1 .. max`. -/
def Contiguous (v0 : Nat) (ds : List (Nat × Delta)) : Prop :=
  ∀ w ∈ deliveredVersions ds, ∀ u, v0 < u → u ≤ w → u ∈ deliveredVersions ds

instance (v0 : Nat) (ds : List (Nat × Delta)) : Decidable (Contiguous v0 ds) :=
  decidable_of_iff
    (∀ w ∈ deliveredVersions ds, ∀ u < w + 1, v0 < u → u ∈ deliveredVersions ds)
    (by
      constructor
      · intro h w hw u hu hle
        exact h w hw u (Nat.lt_succ_of_le hle) hu
      · intro h w hw u hlt hv0
        exact h w hw u hv0 (Nat.lt_succ_iff.mp hlt))

/-- Fold the first-delivered deltas of versions `v0+1 .. v0+len` over an
initial participant mapping; the reference result both runs must reach. -/
def applyRange (ds : List (Nat × Delta)) (p : List (Nat × Participant)) (v0 : Nat) :
    Nat → List (Nat × Participant)
  | 0 => p
  | len + 1 =>
    applyRange ds (mergeDelta p ((firstDelta ds (v0 + 1)).getD [])) (v0 + 1) len

/-- Invariant tying a participant state to the sequence `ds` of deliveries
processed so far, starting from the mapping `base` at version `v0` with an
empty buffer: everything between `v0` and the current version was delivered
and applied (first delivery of each version, in ascending order), and the
buffer holds exactly the delivered-but-not-yet-contiguous versions with their
first-delivered deltas. -/
structure ReconPre (base : List (Nat × Participant)) (v0 : Nat) (ds : List (Nat × Delta))
    (st : GroupCallParticipants) : Prop where
  version_ge : v0 ≤ st.version
  applied_delivered : ∀ u, v0 < u → u ≤ st.version → u ∈ deliveredVersions ds
  participants_eq : st.participants = applyRange ds base v0 (st.version - v0)
  pending_char : ∀ w, st.version < w →
    (w ∈ deliveredVersions ds ↔ (pendingLookup st.pendingVersionUpdates w).isSome)
  pending_first : ∀ w d, pendingLookup st.pendingVersionUpdates w = some d →
    firstDelta ds w = some d

/-- `ReconPre` plus maximality: the next contiguous version has not been
delivered, so the flush is complete. -/
structure ReconInv (base : List (Nat × Participant)) (v0 : Nat) (ds : List (Nat × Delta))
    (st : GroupCallParticipants) extends ReconPre base v0 ds st : Prop where
  frontier_max : st.version + 1 ∉ deliveredVersions ds

/-! ## FlatHashMapImpl (`src/tdutils/td/utils/FlatHashMap.h`)

Open-addressing hash map with linear probing.  A node whose key equals the
default-constructed key is empty (`is_key_empty`, `FlatHashMap.h:336-338`);
keys are modelled as `Nat` with `0` as the reserved empty key, a slot as
`Option (Nat × V)` with `none` for an empty node (the value of an empty C++
node is uninitialized and unobservable).  The hash functor `HashT` is an
arbitrary function `hf : Nat → Nat`. -/

/-- A bucket of the node vector. -/
abbrev Slot (V : Type) := Option (Nat × V)

/-- `FlatHashMapImpl`: the node vector `nodes_` and the element counter
`used_nodes_` (`FlatHashMap.h:339-340`). -/
structure FlatHashMapImpl (V : Type) where
  nodes : List (Slot V)
  used_nodes : Nat
deriving DecidableEq, Repr

namespace FlatHashMapImpl

/-- Probe stop condition of `find_bucket_for_insert` (`FlatHashMap.h:348-357`):
the loop continues while the bucket holds a non-empty key different from the
searched key, so it stops on an empty node or a key match. -/
def stopsAt (nodes : List (Slot V)) (key : Nat) (bucket : Nat) : Bool :=
  match nodes.getD bucket none with
  | none => true
  | some (k', _) => k' = key

/-- Linear probe of `find_bucket_for_insert` starting at `bucket`, stepping
`bucket++; if (bucket == nodes_.size()) bucket = 0;`.  The C++ loop has no
fuel; with the load-factor discipline an empty bucket is always reached, and
`nodes_.size()` steps visit every bucket once. -/
def findBucketAux (nodes : List (Slot V)) (key : Nat) : Nat → Nat → Option Nat
  | _, 0 => none
  | bucket, fuel + 1 =>
    if stopsAt nodes key bucket then some bucket
    else
      findBucketAux nodes key (if bucket + 1 = nodes.length then 0 else bucket + 1) fuel

/-- `find_bucket_for_insert` (`FlatHashMap.h:348-357`): probe from
`HashT()(key) % nodes_.size()`. -/
def find_bucket_for_insert (hf : Nat → Nat) (m : FlatHashMapImpl V) (key : Nat) :
    Option Nat :=
  findBucketAux m.nodes key (hf key % m.nodes.length) m.nodes.length

/-- `find` (`FlatHashMap.h:204-213`): empty maps answer `end()` at once;
otherwise probe and return `end()` when the probe stops on an empty node.
`none` models `end()`, `some (k, v)` the found node. -/
def find (hf : Nat → Nat) (m : FlatHashMapImpl V) (key : Nat) : Option (Nat × V) :=
  if m.used_nodes = 0 then none
  else
    match find_bucket_for_insert hf m key with
    | none => none
    | some bucket =>
      match m.nodes.getD bucket none with
      | none => none
      | some kv => some kv

/-- `size()` (`FlatHashMap.h:224-226`). -/
def size (m : FlatHashMapImpl V) : Nat := m.used_nodes

/-- Backward-shift loop of `erase(Iterator)` (`FlatHashMap.h:312-332`).
`empty_i`/`test_i` are the unnormalized indices of the C++ code (they keep
growing past `nodes_.size()`), `empty_bucket` the real index of the hole.
One step: normalize `test_bucket` by a single subtraction, stop on an empty
node, otherwise compare the tested node's wanted bucket against the cyclic
interval `(empty_i, test_i]` and move the node into the hole when its wanted
bucket lies outside. -/
def eraseLoop (hf : Nat → Nat) (nodes : List (Slot V))
    (empty_i empty_bucket test_i : Nat) : Nat → List (Slot V)
  | 0 => nodes
  | fuel + 1 =>
    let n := nodes.length
    let test_bucket := if n ≤ test_i then test_i - n else test_i
    match nodes.getD test_bucket none with
    | none => nodes
    | some (k', v') =>
      let want_raw := hf k' % n
      let want_i := if want_raw < empty_i then want_raw + n else want_raw
      if want_i ≤ empty_i ∨ test_i < want_i then
        eraseLoop hf ((nodes.set test_bucket none).set empty_bucket (some (k', v')))
          test_i test_bucket (test_i + 1) fuel
      else
        eraseLoop hf nodes empty_i empty_bucket (test_i + 1) fuel

/-- `erase(const KeyT &key)` (`FlatHashMap.h:286-293`) composed with
`erase(Iterator)` (`FlatHashMap.h:303-333`): find the node, clear its bucket,
decrement `used_nodes_` and run the backward-shift loop from the next index.
The loop fuel `nodes_.size()` covers the scan, which under the well-formedness
invariant stops at an empty bucket strictly before wrapping fully around. -/
def erase (hf : Nat → Nat) (m : FlatHashMapImpl V) (key : Nat) : FlatHashMapImpl V :=
  if m.used_nodes = 0 then m
  else
    match find_bucket_for_insert hf m key with
    | none => m
    | some b =>
      match m.nodes.getD b none with
      | none => m
      | some _ =>
        { nodes := eraseLoop hf (m.nodes.set b none) b b (b + 1) m.nodes.length
          used_nodes := m.used_nodes - 1 }

/-- Cyclic distance from bucket `a` to bucket `b` in a table of `n` buckets:
the number of probe steps from `a` to reach `b`. -/
def cdist (n a b : Nat) : Nat := (b + n - a % n) % n

/-- Number of occupied buckets. -/
def countOcc (nodes : List (Slot V)) : Nat :=
  ((Finset.range nodes.length).filter (fun j => (nodes.getD j none).isSome)).card

/-- Well-formedness invariant of a reachable `FlatHashMapImpl`:
a non-trivial table; no stored default key; at most one node per key; every
stored node is reachable from its hash bucket through occupied buckets
(the linear-probing invariant); at least one empty bucket (guaranteed by
`should_resize`, `FlatHashMap.h:342-344`); and `used_nodes_` counts the
occupied buckets. -/
structure WF (hf : Nat → Nat) (m : FlatHashMapImpl V) : Prop where
  npos : 0 < m.nodes.length
  keys_ne_zero : ∀ j < m.nodes.length, ∀ e ∈ m.nodes.getD j none, e.1 ≠ 0
  nodup : ∀ i < m.nodes.length, ∀ j < m.nodes.length,
    ∀ e ∈ m.nodes.getD i none, ∀ e' ∈ m.nodes.getD j none, e.1 = e'.1 → i = j
  probe_path : ∀ j < m.nodes.length, ∀ e ∈ m.nodes.getD j none,
    ∀ t < cdist m.nodes.length (hf e.1 % m.nodes.length) j,
      m.nodes.getD ((hf e.1 % m.nodes.length + t) % m.nodes.length) none ≠ none
  has_empty : ∃ j < m.nodes.length, m.nodes.getD j none = none
  used_eq : m.used_nodes = countOcc m.nodes

end FlatHashMapImpl

/-! ## Theorems -/

/-- C10: `StarManager::get_star_withdrawal_url` completes its promise with a
400 error synchronously, without dispatching any network query, whenever the
target dialog is a user that is not a bot, a channel that is not a broadcast
channel, a broadcast channel in which the caller is not the creator, a dialog
of any other type, or the supplied password string is empty. -/
theorem star_withdrawal_url_local_errors (env : StarEnv) (kind : DialogKind)
    (password : String) (hacc : env.accessError = none)
    (hbad : (kind = .User ∧ env.isUserBot = false)
      ∨ (kind = .Channel ∧ env.isBroadcastChannel = false)
      ∨ (kind = .Channel ∧ env.isBroadcastChannel = true ∧ env.isChannelCreator = false)
      ∨ (kind ≠ .User ∧ kind ≠ .Channel)
      ∨ password = "") :
    ∃ message, get_star_withdrawal_url env kind password = .error 400 message := by
  unfold get_star_withdrawal_url
  rw [hacc]
  rcases hbad with ⟨hk, hb⟩ | ⟨hk, hb⟩ | ⟨hk, hb, hc⟩ | ⟨hk, hc⟩ | hp
  · subst hk; rw [hb]; exact ⟨_, rfl⟩
  · subst hk; rw [hb]; exact ⟨_, rfl⟩
  · subst hk; rw [hb, hc]
    simp only [Bool.not_true, Bool.false_eq_true, if_false, Bool.not_false, if_true]
    exact ⟨_, rfl⟩
  · cases kind with
    | User => exact absurd rfl hk
    | Channel => exact absurd rfl hc
    | Chat => exact ⟨_, rfl⟩
    | SecretChat => exact ⟨_, rfl⟩
    | NoDialog => exact ⟨_, rfl⟩
  · subst hp
    cases kind with
    | User =>
      cases hb : env.isUserBot with
      | false => exact ⟨_, rfl⟩
      | true => exact ⟨_, rfl⟩
    | Channel =>
      cases hb : env.isBroadcastChannel with
      | false => exact ⟨_, rfl⟩
      | true =>
        cases hc : env.isChannelCreator with
        | false => exact ⟨_, rfl⟩
        | true => exact ⟨_, rfl⟩
    | Chat => exact ⟨_, rfl⟩
    | SecretChat => exact ⟨_, rfl⟩
    | NoDialog => exact ⟨_, rfl⟩

/-- Witness for C10: a concrete non-bot user dialog with a passing access
check gets a synchronous 400 error. -/
theorem star_withdrawal_url_local_errors_witness :
    (⟨none, false, false, false⟩ : StarEnv).accessError = none
      ∧ ∃ message,
          get_star_withdrawal_url ⟨none, false, false, false⟩ .User "pw" = .error 400 message :=
  ⟨rfl, star_withdrawal_url_local_errors ⟨none, false, false, false⟩ .User "pw" rfl
    (Or.inl ⟨rfl, rfl⟩)⟩

/-- C8: `set_group_call_title` reports an `InvalidArgument` error
synchronously, before any request is dispatched, if and only if the title
exceeds 64 code points (`MAX_TITLE_LENGTH`); shorter titles pass the local
validation and are dispatched. -/
theorem set_group_call_title_validation (title : String) :
    ((∃ message, set_group_call_title title = .invalidArgument message)
        ↔ MAX_TITLE_LENGTH < title.length)
      ∧ (title.length ≤ MAX_TITLE_LENGTH → set_group_call_title title = .dispatched title) := by
  unfold set_group_call_title
  constructor
  · constructor
    · intro ⟨message, hmsg⟩
      by_contra hlen
      rw [if_neg (by omega)] at hmsg
      exact TitleOutcome.noConfusion hmsg
    · intro hlen
      rw [if_pos (by omega)]
      exact ⟨_, rfl⟩
  · intro hlen
    rw [if_neg (by omega)]

/-- Witness for C8: a 65-code-point title is rejected, a 64-code-point title
is dispatched. -/
theorem set_group_call_title_validation_witness :
    ((∃ message,
        set_group_call_title (String.mk (List.replicate 65 'a')) = .invalidArgument message)
      ↔ MAX_TITLE_LENGTH < (String.mk (List.replicate 65 'a')).length) := by
  exact (set_group_call_title_validation (String.mk (List.replicate 65 'a'))).1

/-- C7: a recent-speakers snapshot contains exactly the stored entries whose
last-spoke timestamp is at most `RECENT_SPEAKER_TIMEOUT` (one hour) old; in
particular no entry older than one hour is present in any snapshot taken
after the decay pruning ran. -/
theorem recent_speakers_decay (now : Nat) (rs : GroupCallRecentSpeakers) (e : Nat × Nat) :
    e ∈ get_recent_speakers now rs
      ↔ (e ∈ rs.users ∧ now ≤ e.2 + RECENT_SPEAKER_TIMEOUT) := by
  simp [get_recent_speakers, List.mem_filter]

/-- C6: after `leave_group_call`, each of the three possible terminations of
the leave request (transport success, transport failure, timeout) drives the
call's join state to `NotJoined`, so a leave never leaves the state machine
stuck. -/
theorem leave_group_call_reaches_not_joined (s : CallState) (outcome : LeaveOutcome) :
    (on_group_call_left (leave_group_call s) outcome).joinState = .notJoined := by
  unfold leave_group_call on_group_call_left
  cases h : s.joinState <;> simp

/-- C4: at most one pending join is tracked per call (an `Option`-valued
`pending_join_requests_` entry); a second `join_group_call` while a join is
in flight returns `AlreadyInProgress` without touching the state or sending a
second request, a second join on a joined call returns the existing audio
source info, and two joins in immediate succession from `NotJoined` dispatch
exactly one outbound join request. -/
theorem join_group_call_single_request (s : CallState) (a a' : Int) :
    (∀ g, s.joinState = .joining g → join_group_call s a = (s, .alreadyInProgress))
      ∧ (∀ au, s.joinState = .joined au → join_group_call s a = (s, .rejoined au))
      ∧ (s.joinState = .notJoined →
          (join_group_call s a).1.outboundJoinRequests = s.outboundJoinRequests + 1
            ∧ (join_group_call (join_group_call s a).1 a').2 = .alreadyInProgress
            ∧ (join_group_call (join_group_call s a).1 a').1 = (join_group_call s a).1) := by
  refine ⟨?_, ?_, ?_⟩
  · intro g hg
    unfold join_group_call
    rw [hg]
  · intro au hau
    unfold join_group_call
    rw [hau]
  · intro hnj
    unfold join_group_call
    rw [hnj]
    exact ⟨rfl, rfl, rfl⟩

/-- Witness for C4: from a concrete `NotJoined` call, two immediate joins
produce one request and the second errors `AlreadyInProgress`. -/
theorem join_group_call_single_request_witness :
    (⟨.notJoined, none, 0, 0, 0, false⟩ : CallState).joinState = .notJoined
      ∧ ((join_group_call ⟨.notJoined, none, 0, 0, 0, false⟩ 5).1.outboundJoinRequests
            = (⟨.notJoined, none, 0, 0, 0, false⟩ : CallState).outboundJoinRequests + 1
          ∧ (join_group_call (join_group_call ⟨.notJoined, none, 0, 0, 0, false⟩ 5).1 7).2
            = .alreadyInProgress
          ∧ (join_group_call (join_group_call ⟨.notJoined, none, 0, 0, 0, false⟩ 5).1 7).1
            = (join_group_call ⟨.notJoined, none, 0, 0, 0, false⟩ 5).1) :=
  ⟨rfl, (join_group_call_single_request ⟨.notJoined, none, 0, 0, 0, false⟩ 5 7).2.2 rfl⟩

/-! ### Generation-ledger lemmas -/

theorem issueGeneration_snd {α : Type} (s : GenLedger α) (key : MutationKey) :
    (issueGeneration s key).2 = counterOf s key.kind + 1 := by
  cases hk : key.kind <;> simp [issueGeneration, counterOf, hk]

theorem counterOf_issueGeneration_self {α : Type} (s : GenLedger α) (key : MutationKey) :
    counterOf (issueGeneration s key).1 key.kind = counterOf s key.kind + 1 := by
  cases hk : key.kind <;> simp [issueGeneration, counterOf, hk]

theorem counterOf_issueGeneration_mono {α : Type} (s : GenLedger α) (key : MutationKey)
    (kind : MutationKind) :
    counterOf s kind ≤ counterOf (issueGeneration s key).1 kind := by
  cases hk : key.kind <;> cases kind <;> simp [issueGeneration, counterOf, hk]

theorem latestGen_issueGeneration_self {α : Type} (s : GenLedger α) (key : MutationKey) :
    (issueGeneration s key).1.latestGen key = some (counterOf s key.kind + 1) := by
  cases hk : key.kind <;> simp [issueGeneration, counterOf, hk]

theorem latestGen_issueGeneration_other {α : Type} (s : GenLedger α) (key k : MutationKey)
    (hne : k ≠ key) :
    (issueGeneration s key).1.latestGen k = s.latestGen k := by
  cases hk : key.kind <;> simp [issueGeneration, hk, hne]

theorem counterOf_issueAll_mono {α : Type} (keys : List MutationKey) (s : GenLedger α)
    (kind : MutationKind) :
    counterOf s kind ≤ counterOf (issueAll s keys) kind := by
  induction keys generalizing s with
  | nil => exact Nat.le_refl _
  | cons key rest ih =>
    exact Nat.le_trans (counterOf_issueGeneration_mono s key kind) (ih _)

theorem latestGen_issueAll_not_mem {α : Type} (keys : List MutationKey) (s : GenLedger α)
    (key : MutationKey) (hnm : key ∉ keys) :
    (issueAll s keys).latestGen key = s.latestGen key := by
  induction keys generalizing s with
  | nil => rfl
  | cons k rest ih =>
    rw [issueAll, ih _ (fun h => hnm (List.mem_cons_of_mem _ h)),
      latestGen_issueGeneration_other s k key (fun h => hnm (h ▸ List.mem_cons_self _ _))]

theorem latestGen_issueAll_of_mem {α : Type} (keys : List MutationKey) (s : GenLedger α)
    (key : MutationKey) (hmem : key ∈ keys) :
    ∃ g, (issueAll s keys).latestGen key = some g ∧ counterOf s key.kind < g := by
  induction keys generalizing s with
  | nil => exact absurd hmem (List.not_mem_nil _)
  | cons k rest ih =>
    rw [issueAll]
    by_cases hk : key ∈ rest
    · obtain ⟨g, hg, hlt⟩ := ih (issueGeneration s k).1 hk
      exact ⟨g, hg, Nat.lt_of_le_of_lt (counterOf_issueGeneration_mono s k key.kind) hlt⟩
    · have hkey : k = key := by
        rcases List.mem_cons.mp hmem with h | h
        · exact h.symm
        · exact absurd h hk
      subst hkey
      rw [latestGen_issueAll_not_mem rest _ k hk, latestGen_issueGeneration_self]
      exact ⟨counterOf s k.kind + 1, rfl, Nat.lt_succ_self _⟩

/-- C1: for every generation-checked mutation kind and every (call [,
participant]) key, if at least one newer generation has been issued for that
key before the response carrying the captured generation arrives, then
processing that response leaves the whole manager state (counters, latest
generations, and all local call and participant state) unchanged. -/
theorem stale_mutation_response_no_op {α : Type} (s0 : GenLedger α) (key : MutationKey)
    (later : List MutationKey) (confirmed : α) (hmem : key ∈ later) :
    onMutationResponse (issueAll (issueGeneration s0 key).1 later) key
        (issueGeneration s0 key).2 confirmed
      = issueAll (issueGeneration s0 key).1 later := by
  obtain ⟨g, hg, hlt⟩ := latestGen_issueAll_of_mem later (issueGeneration s0 key).1 key hmem
  rw [counterOf_issueGeneration_self] at hlt
  rw [onMutationResponse, if_neg]
  rw [hg, issueGeneration_snd]
  intro h
  have : g = counterOf s0 key.kind + 1 := (Option.some_inj.mp h)
  omega

/-- Witness for C1: a concrete volume-level key issued twice; the response of
the first (stale) generation does not change the ledger. -/
theorem stale_mutation_response_no_op_witness :
    (⟨1, some 2, .participantVolume⟩ : MutationKey) ∈ [⟨1, some 2, .participantVolume⟩]
      ∧ onMutationResponse
          (issueAll (issueGeneration initialGenLedger ⟨1, some 2, .participantVolume⟩).1
            [⟨1, some 2, .participantVolume⟩])
          ⟨1, some 2, .participantVolume⟩
          (issueGeneration initialGenLedger ⟨1, some 2, .participantVolume⟩).2 true
        = issueAll (issueGeneration initialGenLedger ⟨1, some 2, .participantVolume⟩).1
            [⟨1, some 2, .participantVolume⟩] :=
  ⟨List.mem_cons_self _ _,
    stale_mutation_response_no_op initialGenLedger ⟨1, some 2, .participantVolume⟩
      [⟨1, some 2, .participantVolume⟩] true (List.mem_cons_self _ _)⟩

/-- C2 counterexample: the generation counters are manager-wide `uint64`
fields, not keyed per call — issuing a recording-toggle generation on call 1
changes the generation that call 2 subsequently receives for its first
recording-toggle, which per-call independent counters would forbid. -/
theorem generation_counters_not_per_call :
    (issueGeneration (issueGeneration initialGenLedger ⟨1, none, .recordingToggle⟩).1
        ⟨2, none, .recordingToggle⟩).2
      ≠ (issueGeneration initialGenLedger ⟨2, none, .recordingToggle⟩).2 := by
  decide

/-- C2 amended: the manager maintains four manager-wide monotonically
increasing generation counters, one per generation-checked mutation kind
(recording-toggle, participant-mute, participant-volume,
participant-hand-raise; the mute-new-participants toggle carries no
generation).  Issuing strictly increments exactly the kind's counter, records
the issued value as the latest generation of the operation's key without
touching other keys, and a mutation response is accepted only if its
generation equals the latest one issued for that key. -/
theorem generation_ledger_amended {α : Type} (s : GenLedger α) (key : MutationKey)
    (g : Nat) (confirmed : α) :
    (counterOf (issueGeneration s key).1 key.kind = counterOf s key.kind + 1
        ∧ (issueGeneration s key).2 = counterOf s key.kind + 1
        ∧ (issueGeneration s key).1.latestGen key = some ((issueGeneration s key).2))
      ∧ (∀ k, k ≠ key → (issueGeneration s key).1.latestGen k = s.latestGen k)
      ∧ (∀ kind, kind ≠ key.kind →
          counterOf (issueGeneration s key).1 kind = counterOf s kind)
      ∧ (s.latestGen key ≠ some g → onMutationResponse s key g confirmed = s)
      ∧ (s.latestGen key = some g →
          (onMutationResponse s key g confirmed).localState key = confirmed) := by
  refine ⟨⟨counterOf_issueGeneration_self s key, issueGeneration_snd s key, ?_⟩,
    fun k hk => latestGen_issueGeneration_other s key k hk, ?_, ?_, ?_⟩
  · rw [latestGen_issueGeneration_self, issueGeneration_snd]
  · intro kind hkind
    cases hk : key.kind <;> cases kind <;>
      simp_all [issueGeneration, counterOf, hk]
  · intro hne
    rw [onMutationResponse, if_neg hne]
  · intro heq
    rw [onMutationResponse, if_pos heq]
    simp

/-- Witness for C2's amended statement at a concrete ledger and key. -/
theorem generation_ledger_amended_witness :
    ((initialGenLedger.latestGen ⟨3, none, .participantMute⟩ ≠ some 7 →
        onMutationResponse initialGenLedger ⟨3, none, .participantMute⟩ 7 true
          = initialGenLedger)) :=
  (generation_ledger_amended initialGenLedger ⟨3, none, .participantMute⟩ 7 true).2.2.2.1

/-! ### Resync debounce lemmas -/

theorem runDeliveries_gapped {st : GroupCallParticipants} {ds : List (Nat × Delta)}
    (hgap : ∀ e ∈ ds, st.version + 1 < e.1) :
    (runDeliveries st ds).version = st.version
      ∧ (runDeliveries st ds).syncRequestsSent = st.syncRequestsSent
      ∧ (ds ≠ [] → (runDeliveries st ds).syncArmed = true)
      ∧ (ds = [] → runDeliveries st ds = st) := by
  induction ds generalizing st with
  | nil => exact ⟨rfl, rfl, fun h => absurd rfl h, fun _ => rfl⟩
  | cons e rest ih =>
    obtain ⟨v, d⟩ := e
    have hv : st.version + 1 < v := hgap (v, d) (List.mem_cons_self _ _)
    have hstep : on_update_group_call_participants st v d
        = { (if (pendingLookup st.pendingVersionUpdates v).isSome then st
             else { st with pendingVersionUpdates := st.pendingVersionUpdates ++ [(v, d)] })
            with syncArmed := true } := by
      rw [on_update_group_call_participants, if_neg (by omega), if_neg (by omega)]
    have hver : (on_update_group_call_participants st v d).version = st.version := by
      rw [hstep]; split <;> rfl
    have hsync : (on_update_group_call_participants st v d).syncRequestsSent
        = st.syncRequestsSent := by
      rw [hstep]; split <;> rfl
    have harmed : (on_update_group_call_participants st v d).syncArmed = true := by
      rw [hstep]
    have hgap' : ∀ e ∈ rest, (on_update_group_call_participants st v d).version + 1 < e.1 := by
      intro e he
      rw [hver]
      exact hgap e (List.mem_cons_of_mem _ he)
    obtain ⟨ihv, ihs, iha, ihe⟩ := ih hgap'
    have hrun : runDeliveries st ((v, d) :: rest)
        = runDeliveries (on_update_group_call_participants st v d) rest := rfl
    refine ⟨by rw [hrun, ihv, hver], by rw [hrun, ihs, hsync], fun _ => ?_,
      fun h => by cases h⟩
    rcases Decidable.em (rest = []) with hr | hr
    · rw [hrun, ihe hr, harmed]
    · rw [hrun]
      exact iha hr

/-- C5: a burst of rapidly delivered gapped deltas (each with a version
exceeding `last_applied + 1`) arms the debounced resync exactly once: no
resync request is sent while the debounce is pending, and when the single
pending `sync_participants_timeout_` fires, exactly one resync request is
issued and the debounce is disarmed. -/
theorem version_gap_single_resync (st : GroupCallParticipants) (ds : List (Nat × Delta))
    (_harmed : st.syncArmed = false) (hne : ds ≠ [])
    (hgap : ∀ e ∈ ds, st.version + 1 < e.1) :
    (runDeliveries st ds).syncRequestsSent = st.syncRequestsSent
      ∧ (on_sync_participants_timeout (runDeliveries st ds)).syncRequestsSent
          = st.syncRequestsSent + 1
      ∧ (on_sync_participants_timeout (runDeliveries st ds)).syncArmed = false := by
  obtain ⟨hv, hs, ha, _⟩ := runDeliveries_gapped hgap
  have harm := ha hne
  refine ⟨hs, ?_, ?_⟩
  · rw [on_sync_participants_timeout, if_pos harm]
    simpa using hs
  · rw [on_sync_participants_timeout, if_pos harm]

/-- Witness for C5: two rapid deltas with the same gap, from a clean state,
yield exactly one resync request when the debounce fires. -/
theorem version_gap_single_resync_witness :
    (⟨[], 1, [], false, 0⟩ : GroupCallParticipants).syncArmed = false
      ∧ ([(5, []), (5, [])] : List (Nat × Delta)) ≠ []
      ∧ (∀ e ∈ ([(5, []), (5, [])] : List (Nat × Delta)),
          (⟨[], 1, [], false, 0⟩ : GroupCallParticipants).version + 1 < e.1)
      ∧ ((runDeliveries ⟨[], 1, [], false, 0⟩ [(5, []), (5, [])]).syncRequestsSent
            = (⟨[], 1, [], false, 0⟩ : GroupCallParticipants).syncRequestsSent
          ∧ (on_sync_participants_timeout
                (runDeliveries ⟨[], 1, [], false, 0⟩ [(5, []), (5, [])])).syncRequestsSent
            = (⟨[], 1, [], false, 0⟩ : GroupCallParticipants).syncRequestsSent + 1
          ∧ (on_sync_participants_timeout
                (runDeliveries ⟨[], 1, [], false, 0⟩ [(5, []), (5, [])])).syncArmed = false) :=
  ⟨rfl, by decide, by decide,
    version_gap_single_resync ⟨[], 1, [], false, 0⟩ [(5, []), (5, [])] rfl (by decide)
      (by decide)⟩

/-! ### Reconciliation: lookup and range lemmas -/

theorem pendingLookup_eq_map (l : List (Nat × Delta)) (v : Nat) :
    pendingLookup l v = (l.find? (fun e => e.1 = v)).map (·.2) := by
  rw [pendingLookup]
  cases l.find? (fun e => e.1 = v) <;> rfl

theorem pendingLookup_append (l₁ l₂ : List (Nat × Delta)) (v : Nat) :
    pendingLookup (l₁ ++ l₂) v = (pendingLookup l₁ v).or (pendingLookup l₂ v) := by
  rw [pendingLookup_eq_map, pendingLookup_eq_map, pendingLookup_eq_map, List.find?_append]
  cases l₁.find? (fun e => e.1 = v) <;> rfl

theorem pendingLookup_singleton (v w : Nat) (d : Delta) :
    pendingLookup [(v, d)] w = if w = v then some d else none := by
  rw [pendingLookup, List.find?]
  by_cases h : v = w
  · subst h; simp
  · simp [h, Ne.symm h]

theorem pendingLookup_cons (e : Nat × Delta) (l : List (Nat × Delta)) (w : Nat) :
    pendingLookup (e :: l) w = if e.1 = w then some e.2 else pendingLookup l w := by
  by_cases hew : e.1 = w
  · simp [pendingLookup, List.find?_cons, hew]
  · simp [pendingLookup, List.find?_cons, hew]

theorem pendingLookup_isSome_iff (l : List (Nat × Delta)) (w : Nat) :
    (pendingLookup l w).isSome ↔ w ∈ deliveredVersions l := by
  induction l with
  | nil => simp [pendingLookup, deliveredVersions]
  | cons e rest ih =>
    rw [pendingLookup_cons]
    by_cases hew : e.1 = w
    · simp [deliveredVersions, hew]
    · rw [if_neg hew]
      simp only [deliveredVersions, List.map_cons, List.mem_cons] at ih ⊢
      rw [ih]
      constructor
      · exact Or.inr
      · rintro (h | h)
        · exact absurd h.symm hew
        · exact h

theorem pendingLookup_none_iff (l : List (Nat × Delta)) (w : Nat) :
    pendingLookup l w = none ↔ w ∉ deliveredVersions l := by
  rw [← pendingLookup_isSome_iff, Option.not_isSome_iff_eq_none]

theorem pendingLookup_filter_ne (l : List (Nat × Delta)) (v w : Nat) (hne : w ≠ v) :
    pendingLookup (l.filter (fun e => e.1 ≠ v)) w = pendingLookup l w := by
  induction l with
  | nil => rfl
  | cons e rest ih =>
    by_cases hev : e.1 = v
    · rw [List.filter_cons_of_neg (by simpa using hev), ih, pendingLookup_cons,
        if_neg (by rw [hev]; exact Ne.symm hne)]
    · rw [List.filter_cons_of_pos (by simpa using hev), pendingLookup_cons,
        pendingLookup_cons, ih]

theorem pendingLookup_erase_ne (l : List (Nat × Delta)) (v w : Nat) (hne : w ≠ v) :
    pendingLookup (pendingErase l v) w = pendingLookup l w :=
  pendingLookup_filter_ne l v w hne

theorem pendingLookup_erase_self (l : List (Nat × Delta)) (v : Nat) :
    pendingLookup (pendingErase l v) v = none := by
  rw [pendingLookup_none_iff, deliveredVersions, pendingErase]
  intro hmem
  obtain ⟨e, he, hev⟩ := List.mem_map.mp hmem
  have := List.of_mem_filter he
  simp [hev] at this

theorem pendingErase_length_lt (l : List (Nat × Delta)) (v : Nat)
    (hsome : (pendingLookup l v).isSome) : (pendingErase l v).length < l.length := by
  induction l with
  | nil => simp [pendingLookup] at hsome
  | cons e rest ih =>
    by_cases hev : e.1 = v
    · rw [pendingErase, List.filter_cons_of_neg (by simpa using hev)]
      exact Nat.lt_succ_of_le (List.length_filter_le _ _)
    · rw [pendingErase, List.filter_cons_of_pos (by simpa using hev), List.length_cons,
        List.length_cons]
      apply Nat.succ_lt_succ
      apply ih
      rw [pendingLookup_cons, if_neg hev] at hsome
      exact hsome

theorem deliveredVersions_append (ps : List (Nat × Delta)) (v : Nat) (d : Delta) (w : Nat) :
    w ∈ deliveredVersions (ps ++ [(v, d)]) ↔ w ∈ deliveredVersions ps ∨ w = v := by
  simp [deliveredVersions, List.map_append]

theorem firstDelta_append_of_isSome (ps l : List (Nat × Delta)) (w : Nat)
    (hsome : (firstDelta ps w).isSome) : firstDelta (ps ++ l) w = firstDelta ps w := by
  rw [firstDelta, firstDelta] at *
  rw [pendingLookup_append]
  cases h : pendingLookup ps w with
  | none => rw [h] at hsome; cases hsome
  | some d => rfl

theorem firstDelta_append_of_none (ps : List (Nat × Delta)) (v w : Nat) (d : Delta)
    (hnone : firstDelta ps w = none) :
    firstDelta (ps ++ [(v, d)]) w = if w = v then some d else none := by
  rw [firstDelta] at *
  rw [pendingLookup_append, hnone, Option.none_or, pendingLookup_singleton]

theorem applyRange_congr (ds₁ ds₂ : List (Nat × Delta)) (p : List (Nat × Participant))
    (v0 len : Nat)
    (h : ∀ u, v0 < u → u ≤ v0 + len → firstDelta ds₁ u = firstDelta ds₂ u) :
    applyRange ds₁ p v0 len = applyRange ds₂ p v0 len := by
  induction len generalizing p v0 with
  | zero => rfl
  | succ len ih =>
    rw [applyRange, applyRange, h (v0 + 1) (Nat.lt_succ_self _) (by omega)]
    exact ih _ _ (fun u hu hle => h u (by omega) (by omega))

theorem applyRange_succ (ds : List (Nat × Delta)) (p : List (Nat × Participant))
    (v0 len : Nat) :
    applyRange ds p v0 (len + 1)
      = mergeDelta (applyRange ds p v0 len) ((firstDelta ds (v0 + len + 1)).getD []) := by
  induction len generalizing p v0 with
  | zero => rw [applyRange, applyRange, applyRange]
  | succ len ih =>
    rw [applyRange, ih, applyRange]
    have : v0 + 1 + len = v0 + (len + 1) := by omega
    rw [this]

/-! ### Reconciliation: invariant preservation -/

theorem reconInv_initial (base : List (Nat × Participant)) (v0 : Nat) (armed : Bool)
    (cnt : Nat) : ReconInv base v0 [] ⟨base, v0, [], armed, cnt⟩ := by
  refine ⟨⟨Nat.le_refl _, ?_, ?_, ?_, ?_⟩, ?_⟩
  · intro u hu hle
    exfalso
    have hle' : u ≤ v0 := hle
    omega
  · show base = applyRange [] base v0 (v0 - v0)
    rw [Nat.sub_self]
    rfl
  · intro w _
    simp [deliveredVersions, pendingLookup]
  · intro w d h
    simp [pendingLookup] at h
  · simp [deliveredVersions]

theorem reconInv_version_unique {base : List (Nat × Participant)} {v0 : Nat}
    {ds₁ ds₂ : List (Nat × Delta)} {st₁ st₂ : GroupCallParticipants}
    (h₁ : ReconInv base v0 ds₁ st₁) (h₂ : ReconInv base v0 ds₂ st₂)
    (hmem : ∀ w, w ∈ deliveredVersions ds₁ ↔ w ∈ deliveredVersions ds₂) :
    st₁.version = st₂.version := by
  rcases Nat.lt_trichotomy st₁.version st₂.version with h | h | h
  · exfalso
    apply h₁.frontier_max
    rw [hmem]
    exact h₂.applied_delivered (st₁.version + 1) (by have := h₁.version_ge; omega) (by omega)
  · exact h
  · exfalso
    apply h₂.frontier_max
    rw [← hmem]
    exact h₁.applied_delivered (st₂.version + 1) (by have := h₂.version_ge; omega) (by omega)

theorem firstDelta_isSome_of_mem {ds : List (Nat × Delta)} {u : Nat}
    (h : u ∈ deliveredVersions ds) : (firstDelta ds u).isSome := by
  rw [firstDelta]
  exact (pendingLookup_isSome_iff ds u).mpr h

theorem applyRange_append_stable (ds l : List (Nat × Delta)) (base : List (Nat × Participant))
    (v0 len : Nat) (h : ∀ u, v0 < u → u ≤ v0 + len → u ∈ deliveredVersions ds) :
    applyRange (ds ++ l) base v0 len = applyRange ds base v0 len :=
  applyRange_congr _ _ _ _ _ (fun u hu hle =>
    firstDelta_append_of_isSome ds l u (firstDelta_isSome_of_mem (h u hu hle)))

theorem flushPending_spec (base : List (Nat × Participant)) (v0 : Nat)
    (ds : List (Nat × Delta)) :
    ∀ (fuel : Nat) (st : GroupCallParticipants),
      st.pendingVersionUpdates.length ≤ fuel →
      ReconPre base v0 ds st →
      ReconInv base v0 ds (flushPending st fuel) := by
  intro fuel
  induction fuel with
  | zero =>
    intro st hlen hpre
    have hnil : st.pendingVersionUpdates = [] :=
      List.eq_nil_of_length_eq_zero (Nat.le_zero.mp hlen)
    refine ⟨hpre, ?_⟩
    intro hmem
    have := (hpre.pending_char (st.version + 1) (Nat.lt_succ_self _)).mp hmem
    rw [hnil] at this
    simp [pendingLookup] at this
  | succ fuel ih =>
    intro st hlen hpre
    rw [flushPending]
    cases hl : pendingLookup st.pendingVersionUpdates (st.version + 1) with
    | none =>
      refine ⟨hpre, ?_⟩
      intro hmem
      have := (hpre.pending_char _ (Nat.lt_succ_self _)).mp hmem
      rw [hl] at this
      cases this
    | some d =>
      apply ih
      · have hlt := pendingErase_length_lt st.pendingVersionUpdates (st.version + 1)
          (by rw [hl]; rfl)
        have : ({ st with
            participants := mergeDelta st.participants d
            version := st.version + 1
            pendingVersionUpdates :=
              pendingErase st.pendingVersionUpdates (st.version + 1) }
              : GroupCallParticipants).pendingVersionUpdates
            = pendingErase st.pendingVersionUpdates (st.version + 1) := rfl
        rw [this]
        omega
      · have hfd : firstDelta ds (st.version + 1) = some d :=
          hpre.pending_first _ _ hl
        refine ⟨by have := hpre.version_ge; show v0 ≤ st.version + 1; omega, ?_, ?_, ?_, ?_⟩
        · intro u hu hle
          show u ∈ deliveredVersions ds
          rcases Nat.lt_or_ge u (st.version + 1) with h | h
          · exact hpre.applied_delivered u hu (by omega)
          · have hu' : u = st.version + 1 := by
              have hle' : u ≤ st.version + 1 := hle
              omega
            subst hu'
            apply (pendingLookup_isSome_iff _ _).mp
            have hfd' : pendingLookup ds (st.version + 1) = some d := hfd
            rw [hfd']
            rfl
        · show mergeDelta st.participants d
            = applyRange ds base v0 (st.version + 1 - v0)
          have hge := hpre.version_ge
          have hsub : st.version + 1 - v0 = (st.version - v0) + 1 := by omega
          rw [hsub, applyRange_succ]
          have hidx : v0 + (st.version - v0) + 1 = st.version + 1 := by omega
          rw [hidx, hfd, hpre.participants_eq]
          rfl
        · intro w hw
          have hw' : st.version + 1 < w := hw
          have := hpre.pending_char w (by omega)
          rw [this, pendingLookup_erase_ne _ _ _ (by omega)]
        · intro w d' hlook
          have hw : pendingLookup st.pendingVersionUpdates w = some d' := by
            rcases Decidable.em (w = st.version + 1) with hw | hw
            · subst hw
              rw [pendingLookup_erase_self] at hlook
              cases hlook
            · rw [pendingLookup_erase_ne _ _ _ hw] at hlook
              exact hlook
          exact hpre.pending_first w d' hw

theorem on_update_step (base : List (Nat × Participant)) (v0 : Nat) (ds : List (Nat × Delta))
    (v : Nat) (d : Delta) (st : GroupCallParticipants) (hinv : ReconInv base v0 ds st) :
    ReconInv base v0 (ds ++ [(v, d)]) (on_update_group_call_participants st v d) := by
  have hge := hinv.version_ge
  by_cases h1 : v ≤ st.version
  · rw [on_update_group_call_participants, if_pos h1]
    refine ⟨⟨hge, ?_, ?_, ?_, ?_⟩, ?_⟩
    · intro u hu hle
      exact (deliveredVersions_append ds v d u).mpr (Or.inl (hinv.applied_delivered u hu hle))
    · rw [applyRange_append_stable ds [(v, d)] base v0 _
        (fun u hu hle => hinv.applied_delivered u hu (by omega))]
      exact hinv.participants_eq
    · intro w hw
      rw [deliveredVersions_append]
      have hwv : w ≠ v := by omega
      constructor
      · rintro (h | h)
        · exact (hinv.pending_char w hw).mp h
        · exact absurd h hwv
      · intro h
        exact Or.inl ((hinv.pending_char w hw).mpr h)
    · intro w d' hlook
      have hfd := hinv.pending_first w d' hlook
      rw [firstDelta_append_of_isSome ds [(v, d)] w (by rw [hfd]; rfl)]
      exact hfd
    · intro hmem
      rcases (deliveredVersions_append ds v d _).mp hmem with h | h
      · exact hinv.frontier_max h
      · omega
  · by_cases h2 : v = st.version + 1
    · rw [on_update_group_call_participants, if_neg h1, if_pos h2]
      apply flushPending_spec
      · exact Nat.le_refl _
      · have hnotmem : v ∉ deliveredVersions ds := by rw [h2]; exact hinv.frontier_max
        have hfdnone : firstDelta ds v = none := by
          rw [firstDelta, pendingLookup_none_iff]
          exact hnotmem
        have hfd' : firstDelta (ds ++ [(v, d)]) v = some d := by
          rw [firstDelta_append_of_none ds v v d hfdnone, if_pos rfl]
        refine ⟨?_, ?_, ?_, ?_, ?_⟩
        · show v0 ≤ v
          omega
        · intro u hu hle
          have hle' : u ≤ v := hle
          apply (deliveredVersions_append ds v d u).mpr
          rcases Decidable.em (u = v) with he | he
          · exact Or.inr he
          · exact Or.inl (hinv.applied_delivered u hu (by omega))
        · show mergeDelta st.participants d = applyRange (ds ++ [(v, d)]) base v0 (v - v0)
          have hsub : v - v0 = (st.version - v0) + 1 := by omega
          rw [hsub, applyRange_succ]
          have hidx : v0 + (st.version - v0) + 1 = v := by omega
          rw [hidx, hfd',
            applyRange_append_stable ds [(v, d)] base v0 (st.version - v0)
              (fun u hu hle => hinv.applied_delivered u hu (by omega)),
            hinv.participants_eq]
          rfl
        · intro w hw
          have hw' : v < w := hw
          show w ∈ deliveredVersions (ds ++ [(v, d)])
            ↔ (pendingLookup st.pendingVersionUpdates w).isSome
          rw [deliveredVersions_append]
          have hwv : w ≠ v := by omega
          constructor
          · rintro (h | h)
            · exact (hinv.pending_char w (by omega)).mp h
            · exact absurd h hwv
          · intro h
            exact Or.inl ((hinv.pending_char w (by omega)).mpr h)
        · intro w d' hlook
          have hfd := hinv.pending_first w d' hlook
          rw [firstDelta_append_of_isSome ds [(v, d)] w (by rw [hfd]; rfl)]
          exact hfd
    · rw [on_update_group_call_participants, if_neg h1, if_neg h2]
      have hgap : st.version + 1 < v := by omega
      cases hdup : (pendingLookup st.pendingVersionUpdates v).isSome with
      | true =>
        rw [if_pos rfl]
        show ReconInv base v0 (ds ++ [(v, d)]) { st with syncArmed := true }
        refine ⟨⟨hge, ?_, ?_, ?_, ?_⟩, ?_⟩
        · intro u hu hle
          have hle' : u ≤ st.version := hle
          exact (deliveredVersions_append ds v d u).mpr
            (Or.inl (hinv.applied_delivered u hu hle'))
        · show st.participants = applyRange (ds ++ [(v, d)]) base v0 (st.version - v0)
          rw [applyRange_append_stable ds [(v, d)] base v0 _
            (fun u hu hle => hinv.applied_delivered u hu (by omega))]
          exact hinv.participants_eq
        · intro w hw
          have hw' : st.version < w := hw
          show w ∈ deliveredVersions (ds ++ [(v, d)])
            ↔ (pendingLookup st.pendingVersionUpdates w).isSome
          rw [deliveredVersions_append]
          rcases Decidable.em (w = v) with he | he
          · subst he
            constructor
            · intro _
              exact hdup
            · intro _
              exact Or.inr rfl
          · constructor
            · rintro (h | h)
              · exact (hinv.pending_char w hw').mp h
              · exact absurd h he
            · intro h
              exact Or.inl ((hinv.pending_char w hw').mpr h)
        · intro w d' hlook
          have hfd := hinv.pending_first w d' hlook
          rw [firstDelta_append_of_isSome ds [(v, d)] w (by rw [hfd]; rfl)]
          exact hfd
        · intro hmem
          have hmem' : st.version + 1 ∈ deliveredVersions (ds ++ [(v, d)]) := hmem
          rcases (deliveredVersions_append ds v d _).mp hmem' with h | h
          · exact hinv.frontier_max h
          · omega
      | false =>
        rw [if_neg Bool.false_ne_true]
        show ReconInv base v0 (ds ++ [(v, d)])
          { st with pendingVersionUpdates := st.pendingVersionUpdates ++ [(v, d)]
                    syncArmed := true }
        have hpnone : pendingLookup st.pendingVersionUpdates v = none := by
          rcases ho : pendingLookup st.pendingVersionUpdates v with _ | d''
          · rfl
          · rw [ho] at hdup
            cases hdup
        have hvnotmem : v ∉ deliveredVersions ds := by
          intro hmem
          have := (hinv.pending_char v (by omega)).mp hmem
          rw [hpnone] at this
          cases this
        refine ⟨⟨hge, ?_, ?_, ?_, ?_⟩, ?_⟩
        · intro u hu hle
          have hle' : u ≤ st.version := hle
          exact (deliveredVersions_append ds v d u).mpr
            (Or.inl (hinv.applied_delivered u hu hle'))
        · show st.participants = applyRange (ds ++ [(v, d)]) base v0 (st.version - v0)
          rw [applyRange_append_stable ds [(v, d)] base v0 _
            (fun u hu hle => hinv.applied_delivered u hu (by omega))]
          exact hinv.participants_eq
        · intro w hw
          have hw' : st.version < w := hw
          show w ∈ deliveredVersions (ds ++ [(v, d)])
            ↔ (pendingLookup (st.pendingVersionUpdates ++ [(v, d)]) w).isSome
          rw [deliveredVersions_append, pendingLookup_append, pendingLookup_singleton]
          rcases Decidable.em (w = v) with he | he
          · subst he
            rw [hpnone, if_pos rfl]
            constructor
            · intro _
              rfl
            · intro _
              exact Or.inr rfl
          · rw [if_neg he, Option.or_none]
            constructor
            · rintro (h | h)
              · exact (hinv.pending_char w hw').mp h
              · exact absurd h he
            · intro h
              exact Or.inl ((hinv.pending_char w hw').mpr h)
        · intro w d' hlook
          show firstDelta (ds ++ [(v, d)]) w = some d'
          have hlook' : pendingLookup (st.pendingVersionUpdates ++ [(v, d)]) w = some d' :=
            hlook
          rw [pendingLookup_append, pendingLookup_singleton] at hlook'
          rcases ho : pendingLookup st.pendingVersionUpdates w with _ | d''
          · rw [ho, Option.none_or] at hlook'
            rcases Decidable.em (w = v) with he | he
            · subst he
              rw [if_pos rfl] at hlook'
              have hfdnone : firstDelta ds w = none := by
                rw [firstDelta, pendingLookup_none_iff]
                exact hvnotmem
              rw [firstDelta_append_of_none ds w w d hfdnone, if_pos rfl]
              exact hlook'
            · rw [if_neg he] at hlook'
              cases hlook'
          · rw [ho] at hlook'
            have hd'' : d'' = d' := by
              have : (some d'').or (if w = v then some d else none) = some d'' := rfl
              rw [this] at hlook'
              exact Option.some_inj.mp hlook'
            subst hd''
            have hfd := hinv.pending_first w d'' ho
            rw [firstDelta_append_of_isSome ds [(v, d)] w (by rw [hfd]; rfl)]
            exact hfd
        · intro hmem
          have hmem' : st.version + 1 ∈ deliveredVersions (ds ++ [(v, d)]) := hmem
          rcases (deliveredVersions_append ds v d _).mp hmem' with h | h
          · exact hinv.frontier_max h
          · omega

theorem runDeliveries_inv (base : List (Nat × Participant)) (v0 : Nat) :
    ∀ (ds pre : List (Nat × Delta)) (st : GroupCallParticipants),
      ReconInv base v0 pre st →
      ReconInv base v0 (pre ++ ds) (runDeliveries st ds) := by
  intro ds
  induction ds with
  | nil =>
    intro pre st hinv
    rw [List.append_nil]
    exact hinv
  | cons e rest ih =>
    intro pre st hinv
    obtain ⟨v, d⟩ := e
    have hstep := on_update_step base v0 pre v d st hinv
    have := ih (pre ++ [(v, d)]) _ hstep
    rw [List.append_assoc] at this
    exact this

/-! ### Reconciliation: the sorted-deduplicated delivery order -/

theorem pendingLookup_dedup (l : List (Nat × Delta)) (w : Nat) :
    pendingLookup (dedupByVersion l) w = pendingLookup l w := by
  induction l with
  | nil => rfl
  | cons e rest ih =>
    rw [dedupByVersion, pendingLookup_cons, pendingLookup_cons]
    by_cases hew : e.1 = w
    · rw [if_pos hew, if_pos hew]
    · rw [if_neg hew, if_neg hew, ← ih]
      exact pendingLookup_filter_ne _ _ _ (fun h => hew (h ▸ rfl))

theorem mem_of_pendingLookup_some {l : List (Nat × Delta)} {w : Nat} {d : Delta}
    (h : pendingLookup l w = some d) : (w, d) ∈ l := by
  rw [pendingLookup_eq_map] at h
  rcases hf : l.find? (fun e => e.1 = w) with _ | e
  · rw [hf] at h
    cases h
  · rw [hf] at h
    have hmem := List.mem_of_find?_eq_some hf
    have hkey : e.1 = w := by simpa using List.find?_some hf
    have hval : e.2 = d := Option.some_inj.mp h
    have : (w, d) = e := by
      rw [← hkey, ← hval]
    rw [this]
    exact hmem

theorem dedupByVersion_keys_nodup (l : List (Nat × Delta)) :
    (deliveredVersions (dedupByVersion l)).Nodup := by
  induction l with
  | nil => exact List.nodup_nil
  | cons e rest ih =>
    rw [dedupByVersion, deliveredVersions, List.map_cons, List.nodup_cons]
    constructor
    · intro hmem
      obtain ⟨x, hx, hfx⟩ := List.mem_map.mp hmem
      have := List.of_mem_filter hx
      simp [hfx] at this
    · have hsub : List.Sublist ((dedupByVersion rest).filter (fun x => x.1 ≠ e.1))
          (dedupByVersion rest) := List.filter_sublist _
      exact List.Nodup.sublist (hsub.map _) ih

theorem insertByVersion_perm (e : Nat × Delta) (l : List (Nat × Delta)) :
    (insertByVersion e l).Perm (e :: l) := by
  induction l with
  | nil => exact List.Perm.refl _
  | cons f rest ih =>
    rw [insertByVersion]
    by_cases h : e.1 ≤ f.1
    · rw [if_pos h]
    · rw [if_neg h]
      exact (ih.cons f).trans (List.Perm.swap e f rest)

theorem sortByVersion_perm (l : List (Nat × Delta)) : (sortByVersion l).Perm l := by
  induction l with
  | nil => exact List.Perm.refl _
  | cons e rest ih =>
    rw [sortByVersion]
    exact (insertByVersion_perm e (sortByVersion rest)).trans (ih.cons e)

theorem pendingLookup_of_mem_nodup {l : List (Nat × Delta)} {w : Nat} {d : Delta}
    (hnd : (deliveredVersions l).Nodup) (hmem : (w, d) ∈ l) :
    pendingLookup l w = some d := by
  induction l with
  | nil => cases hmem
  | cons e rest ih =>
    rw [deliveredVersions, List.map_cons, List.nodup_cons] at hnd
    rw [pendingLookup_cons]
    rcases List.mem_cons.mp hmem with he | he
    · rw [← he]
      exact if_pos rfl
    · have hne : e.1 ≠ w := by
        intro hew
        exact hnd.1 (hew ▸ List.mem_map.mpr ⟨(w, d), he, rfl⟩)
      rw [if_neg hne]
      exact ih hnd.2 he

theorem firstDelta_sortedDedup (ds : List (Nat × Delta)) (w : Nat) :
    firstDelta (sortedDedup ds) w = firstDelta ds w := by
  have hperm : (sortedDedup ds).Perm (dedupByVersion ds) := sortByVersion_perm _
  have hnd : (deliveredVersions (sortedDedup ds)).Nodup := by
    rw [deliveredVersions]
    exact ((hperm.map Prod.fst).nodup_iff).mpr (dedupByVersion_keys_nodup ds)
  rw [firstDelta, firstDelta]
  rcases hl : pendingLookup ds w with _ | d
  · rw [pendingLookup_none_iff] at hl ⊢
    intro hmem
    apply hl
    obtain ⟨e, he, hfe⟩ := List.mem_map.mp hmem
    have he' : e ∈ dedupByVersion ds := hperm.mem_iff.mp he
    have : (pendingLookup (dedupByVersion ds) w).isSome := by
      apply (pendingLookup_isSome_iff _ _).mpr
      exact List.mem_map.mpr ⟨e, he', hfe⟩
    rw [pendingLookup_dedup] at this
    exact (pendingLookup_isSome_iff _ _).mp this
  · have hmemd : (w, d) ∈ dedupByVersion ds := by
      apply mem_of_pendingLookup_some
      rw [pendingLookup_dedup]
      exact hl
    exact pendingLookup_of_mem_nodup hnd (hperm.mem_iff.mpr hmemd)

theorem deliveredVersions_sortedDedup (ds : List (Nat × Delta)) (w : Nat) :
    w ∈ deliveredVersions (sortedDedup ds) ↔ w ∈ deliveredVersions ds := by
  rw [← pendingLookup_isSome_iff, ← pendingLookup_isSome_iff]
  have h := firstDelta_sortedDedup ds w
  rw [firstDelta, firstDelta] at h
  rw [h]

/-- C3: for every sequence of participant-delta deliveries, possibly with
duplicated and permuted version numbers, once contiguity up to the highest
delivered version is reached the merged `ParticipantSet` equals the one
obtained by delivering the same deltas sorted by ascending version with
duplicate versions removed; contiguity moreover guarantees every delivered
version above the initial one has actually been applied. -/
theorem participant_delta_order_independence (base : List (Nat × Participant))
    (v0 cnt : Nat) (armed : Bool) (ds : List (Nat × Delta))
    (hcont : Contiguous v0 ds) :
    ((runDeliveries ⟨base, v0, [], armed, cnt⟩ ds).participants
        = (runDeliveries ⟨base, v0, [], armed, cnt⟩ (sortedDedup ds)).participants)
      ∧ (∀ w ∈ deliveredVersions ds, v0 < w →
          w ≤ (runDeliveries ⟨base, v0, [], armed, cnt⟩ ds).version) := by
  have hinv1 := runDeliveries_inv base v0 ds [] _ (reconInv_initial base v0 armed cnt)
  rw [List.nil_append] at hinv1
  have hinv2 := runDeliveries_inv base v0 (sortedDedup ds) [] _
    (reconInv_initial base v0 armed cnt)
  rw [List.nil_append] at hinv2
  have hmem : ∀ w, w ∈ deliveredVersions ds ↔ w ∈ deliveredVersions (sortedDedup ds) :=
    fun w => (deliveredVersions_sortedDedup ds w).symm
  have hver := reconInv_version_unique hinv1 hinv2 hmem
  constructor
  · rw [hinv1.participants_eq, hinv2.participants_eq, ← hver]
    apply applyRange_congr
    intro u hu hle
    exact (firstDelta_sortedDedup ds u).symm
  · intro w hw hv0
    by_contra hgt
    push_neg at hgt
    apply hinv1.frontier_max
    exact hcont w hw _ (by have := hinv1.version_ge; omega) (by omega)

/-- Witness for C3: a duplicated, permuted delivery `7, 6, 7` from version 5
merges to the same participant set as the sorted deduplicated delivery
`6, 7`. -/
theorem participant_delta_order_independence_witness :
    Contiguous 5
        [(7, [⟨1, false, ⟨10⟩⟩]), (6, [⟨2, false, ⟨20⟩⟩]), (7, [⟨1, false, ⟨30⟩⟩])]
      ∧ ((runDeliveries ⟨[], 5, [], false, 0⟩
            [(7, [⟨1, false, ⟨10⟩⟩]), (6, [⟨2, false, ⟨20⟩⟩]),
              (7, [⟨1, false, ⟨30⟩⟩])]).participants
          = (runDeliveries ⟨[], 5, [], false, 0⟩
              (sortedDedup
                [(7, [⟨1, false, ⟨10⟩⟩]), (6, [⟨2, false, ⟨20⟩⟩]),
                  (7, [⟨1, false, ⟨30⟩⟩])])).participants) :=
  ⟨by decide,
    (participant_delta_order_independence [] 5 0 false
      [(7, [⟨1, false, ⟨10⟩⟩]), (6, [⟨2, false, ⟨20⟩⟩]), (7, [⟨1, false, ⟨30⟩⟩])]
      (by decide)).1⟩

/-! ### FlatHashMapImpl: cyclic-distance toolkit -/

namespace FlatHashMapImpl

theorem cdist_lt (n a b : Nat) (hn : 0 < n) : cdist n a b < n := Nat.mod_lt _ hn

theorem modeq_window (n x y : Nat) (hmod : x % n = y % n) (hxy : x ≤ y) (hlt : y < x + n) :
    x = y := by
  have hdvd : n ∣ y - x := (Nat.modEq_iff_dvd' hxy).mp hmod
  have h0 : y - x = 0 := Nat.eq_zero_of_dvd_of_lt hdvd (by omega) |>.symm ▸ rfl
  omega

theorem cdist_spec (n a b : Nat) (_hn : 0 < n) (ha : a < n) (hb : b < n) :
    (a + cdist n a b) % n = b := by
  have h1 : (a + cdist n a b) % n = (a + (b + n - a)) % n := by
    rw [cdist, Nat.mod_eq_of_lt ha, Nat.add_mod, Nat.mod_mod_of_dvd _ dvd_rfl, ← Nat.add_mod]
  rw [h1]
  have h2 : a + (b + n - a) = b + n := by omega
  rw [h2, Nat.add_mod_right, Nat.mod_eq_of_lt hb]

theorem cdist_unique (n a b t : Nat) (hn : 0 < n) (ha : a < n) (hb : b < n) (ht : t < n)
    (h : (a + t) % n = b) : t = cdist n a b := by
  have h1 : (a + cdist n a b) % n = b := cdist_spec n a b hn ha hb
  have h2 : (a + t) % n = (a + cdist n a b) % n := by rw [h, h1]
  rcases Nat.le_total t (cdist n a b) with hle | hle
  · have := modeq_window n (a + t) (a + cdist n a b) h2 (by omega)
      (by have := cdist_lt n a b hn; omega)
    omega
  · have := modeq_window n (a + cdist n a b) (a + t) h2.symm (by omega) (by omega)
    omega

theorem path_shift (n a t : Nat) : ((a + 1) % n + t) % n = (a + (t + 1)) % n := by
  rw [Nat.add_mod, Nat.mod_mod_of_dvd _ dvd_rfl, ← Nat.add_mod]
  have h : a + 1 + t = a + (t + 1) := by omega
  rw [h]

/-! ### FlatHashMapImpl: probe characterization -/

theorem step_bucket_eq {n bucket : Nat} (hb : bucket < n) :
    (if bucket + 1 = n then 0 else bucket + 1) = (bucket + 1) % n := by
  by_cases h : bucket + 1 = n
  · rw [if_pos h, h, Nat.mod_self]
  · rw [if_neg h, Nat.mod_eq_of_lt (by omega)]

theorem findBucketAux_stops {V : Type} (nodes : List (Slot V)) (key : Nat) :
    ∀ (d fuel start : Nat), 0 < nodes.length → start < nodes.length → d < fuel →
    (∀ t, t < d → stopsAt nodes key ((start + t) % nodes.length) = false) →
    stopsAt nodes key ((start + d) % nodes.length) = true →
    findBucketAux nodes key start fuel = some ((start + d) % nodes.length) := by
  intro d
  induction d with
  | zero =>
    intro fuel start hn hstart hfuel _ hstop
    rcases fuel with _ | fuel
    · omega
    · rw [findBucketAux, if_pos]
      · rw [Nat.add_zero, Nat.mod_eq_of_lt hstart]
      · rw [Nat.add_zero, Nat.mod_eq_of_lt hstart] at hstop
        exact hstop
  | succ d ih =>
    intro fuel start hn hstart hfuel hnostop hstop
    rcases fuel with _ | fuel
    · omega
    · rw [findBucketAux, if_neg, step_bucket_eq hstart]
      · have hstart' : (start + 1) % nodes.length < nodes.length := Nat.mod_lt _ hn
        have heq : ∀ t, ((start + 1) % nodes.length + t) % nodes.length
            = (start + (t + 1)) % nodes.length := fun t => path_shift nodes.length start t
        rw [ih fuel ((start + 1) % nodes.length) hn hstart' (by omega)
          (fun t ht => by rw [heq t]; exact hnostop (t + 1) (by omega))
          (by rw [heq d]; exact hstop)]
        rw [heq d]
      · have := hnostop 0 (by omega)
        rw [Nat.add_zero, Nat.mod_eq_of_lt hstart] at this
        rw [this]
        exact Bool.false_ne_true

/-! ### FlatHashMapImpl: `find` characterization -/

theorem countOcc_pos {V : Type} (nodes : List (Slot V)) (j : Nat) (hj : j < nodes.length)
    (hocc : (nodes.getD j none).isSome) : 0 < countOcc nodes := by
  rw [countOcc]
  apply Finset.card_pos.mpr
  exact ⟨j, Finset.mem_filter.mpr ⟨Finset.mem_range.mpr hj, hocc⟩⟩

theorem find_bucket_of_stored {V : Type} (hf : Nat → Nat) (m : FlatHashMapImpl V)
    (k : Nat) (v : V) (j : Nat) (hwf : WF hf m) (hj : j < m.nodes.length)
    (hslot : m.nodes.getD j none = some (k, v)) :
    find_bucket_for_insert hf m k = some j := by
  have hn := hwf.npos
  have hstart : hf k % m.nodes.length < m.nodes.length := Nat.mod_lt _ hn
  rw [find_bucket_for_insert]
  have hd : (hf k % m.nodes.length + cdist m.nodes.length (hf k % m.nodes.length) j)
      % m.nodes.length = j := cdist_spec _ _ _ hn hstart hj
  rw [← hd]
  apply findBucketAux_stops m.nodes k _ _ _ hn hstart
    (cdist_lt _ _ _ hn)
  · intro t ht
    have hppos : (hf k % m.nodes.length + t) % m.nodes.length < m.nodes.length :=
      Nat.mod_lt _ hn
    rcases hslot' : m.nodes.getD ((hf k % m.nodes.length + t) % m.nodes.length) none
      with _ | e
    · exfalso
      exact hwf.probe_path j hj (k, v) (by rw [hslot]; rfl) t ht hslot'
    · rw [stopsAt, hslot']
      rcases e with ⟨k', v'⟩
      by_cases hk' : k' = k
      · exfalso
        subst hk'
        have heq := hwf.nodup _ hppos _ hj (k', v') (by rw [hslot']; rfl) (k', v)
          (by rw [hslot]; rfl) rfl
        have := cdist_unique m.nodes.length (hf k' % m.nodes.length) j t hn hstart hj
          (by have := cdist_lt m.nodes.length (hf k' % m.nodes.length) j hn; omega) heq
        omega
      · simp [hk']
  · rw [hd, stopsAt, hslot]
    simp

theorem find_of_stored {V : Type} (hf : Nat → Nat) (m : FlatHashMapImpl V) (k : Nat)
    (v : V) (j : Nat) (hwf : WF hf m) (hj : j < m.nodes.length)
    (hslot : m.nodes.getD j none = some (k, v)) :
    find hf m k = some (k, v) := by
  have hused : m.used_nodes ≠ 0 := by
    rw [hwf.used_eq]
    have := countOcc_pos m.nodes j hj (by rw [hslot]; rfl)
    omega
  have hbucket := find_bucket_of_stored hf m k v j hwf hj hslot
  rw [find, if_neg hused, hbucket]
  show (match m.nodes.getD j none with
    | none => none
    | some kv => some kv) = some (k, v)
  rw [hslot]

theorem find_of_not_stored {V : Type} (hf : Nat → Nat) (m : FlatHashMapImpl V) (k : Nat)
    (hwf : WF hf m) (habs : ∀ j < m.nodes.length, ∀ e ∈ m.nodes.getD j none, e.1 ≠ k) :
    find hf m k = none := by
  have hn := hwf.npos
  rcases Decidable.em (m.used_nodes = 0) with h0 | h0
  · rw [find, if_pos h0]
  · rw [find, if_neg h0]
    have hstart : hf k % m.nodes.length < m.nodes.length := Nat.mod_lt _ hn
    obtain ⟨e, he, hempty⟩ := hwf.has_empty
    have hex : ∃ t, stopsAt m.nodes k ((hf k % m.nodes.length + t) % m.nodes.length)
        = true := by
      refine ⟨cdist m.nodes.length (hf k % m.nodes.length) e, ?_⟩
      rw [cdist_spec _ _ _ hn hstart he, stopsAt, hempty]
    have hdlt : Nat.find hex < m.nodes.length := by
      have hcand : stopsAt m.nodes k ((hf k % m.nodes.length
          + cdist m.nodes.length (hf k % m.nodes.length) e) % m.nodes.length) = true := by
        rw [cdist_spec _ _ _ hn hstart he, stopsAt, hempty]
      exact Nat.lt_of_le_of_lt (Nat.find_le hcand) (cdist_lt _ _ _ hn)
    have hstop := Nat.find_spec hex
    have hbucket : find_bucket_for_insert hf m k
        = some ((hf k % m.nodes.length + Nat.find hex) % m.nodes.length) := by
      rw [find_bucket_for_insert]
      exact findBucketAux_stops m.nodes k _ _ _ hn hstart hdlt
        (fun t ht => by
          have := Nat.find_min hex ht
          rcases hb : stopsAt m.nodes k ((hf k % m.nodes.length + t) % m.nodes.length)
          · rfl
          · exact absurd hb this)
        hstop
    rw [hbucket]
    have hpos : (hf k % m.nodes.length + Nat.find hex) % m.nodes.length
        < m.nodes.length := Nat.mod_lt _ hn
    rcases hslot : m.nodes.getD
        ((hf k % m.nodes.length + Nat.find hex) % m.nodes.length) none with _ | e'
    · show (match m.nodes.getD ((hf k % m.nodes.length + Nat.find hex) % m.nodes.length)
            none with
        | none => none
        | some kv => some kv) = (none : Option (Nat × V))
      rw [hslot]
    · exfalso
      rw [stopsAt, hslot] at hstop
      rcases e' with ⟨k', v'⟩
      have hk' : k' = k := by simpa using hstop
      exact habs _ hpos (k', v') (by rw [hslot]; rfl) hk'

theorem findBucketAux_some_lt {V : Type} (nodes : List (Slot V)) (key : Nat) :
    ∀ (fuel start bucket : Nat), start < nodes.length →
      findBucketAux nodes key start fuel = some bucket → bucket < nodes.length := by
  intro fuel
  induction fuel with
  | zero =>
    intro start bucket _ h
    exact Option.noConfusion h
  | succ fuel ih =>
    intro start bucket hstart h
    rw [findBucketAux] at h
    by_cases hs : stopsAt nodes key start
    · rw [if_pos hs] at h
      cases h
      exact hstart
    · rw [if_neg hs] at h
      refine ih _ _ ?_ h
      by_cases he : start + 1 = nodes.length
      · rw [if_pos he]
        omega
      · rw [if_neg he]
        omega

theorem find_some_inv {V : Type} (hf : Nat → Nat) (m : FlatHashMapImpl V) (key : Nat)
    (p : Nat × V) (hn : 0 < m.nodes.length) (h : find hf m key = some p) :
    ∃ j, j < m.nodes.length ∧ m.nodes.getD j none = some p := by
  rw [find] at h
  by_cases h0 : m.used_nodes = 0
  · rw [if_pos h0] at h
    exact Option.noConfusion h
  · rw [if_neg h0] at h
    rcases hb : find_bucket_for_insert hf m key with _ | bucket
    · rw [hb] at h
      exact Option.noConfusion h
    · rw [hb] at h
      have h' : (match m.nodes.getD bucket none with
        | none => none
        | some kv => some kv) = some p := h
      have hblt : bucket < m.nodes.length :=
        findBucketAux_some_lt m.nodes key m.nodes.length (hf key % m.nodes.length)
          bucket (Nat.mod_lt _ hn) hb
      rcases hs : m.nodes.getD bucket none with _ | kv
      · rw [hs] at h'
        exact Option.noConfusion h'
      · rw [hs] at h'
        have hkp : kv = p := by
          have hsp : some kv = some p := h'
          cases hsp
          rfl
        exact ⟨bucket, hblt, by rw [hs, hkp]⟩

/-! ### FlatHashMapImpl: list-update helpers -/

theorem getD_set_self {V : Type} (l : List (Slot V)) (i : Nat) (v : Slot V)
    (h : i < l.length) : (l.set i v).getD i none = v := by
  rw [List.getD_eq_getElem?_getD, List.getElem?_set, if_pos rfl, if_pos h]
  rfl

theorem getD_set_ne {V : Type} (l : List (Slot V)) (i j : Nat) (v : Slot V)
    (h : i ≠ j) : (l.set i v).getD j none = l.getD j none := by
  rw [List.getD_eq_getElem?_getD, List.getElem?_set, if_neg h, ← List.getD_eq_getElem?_getD]

theorem mod_sub_n {n x : Nat} (hnx : n ≤ x) (hx : x < n + n) : x % n = x - n := by
  have h1 : x = x - n + n := by omega
  calc x % n = (x - n + n) % n := by rw [← h1]
    _ = (x - n) % n := Nat.add_mod_right _ _
    _ = x - n := Nat.mod_eq_of_lt (by omega)

theorem mod_add_right_eq {n a b : Nat} (h : a % n = b % n) (c : Nat) :
    (a + c) % n = (b + c) % n := by
  rw [Nat.add_mod, h, ← Nat.add_mod]

/-! ### FlatHashMapImpl: cyclic-interval arguments for backward-shift deletion -/

/-- If the move condition of the erase loop holds for a node with raw wanted
bucket `w` tested at unnormalized index `t_i` while the hole sits at `e_i`,
then the hole's bucket lies on the node's probe path. -/
theorem hole_in_path (n b0 e_i t_i w : Nat) (hn : 0 < n) (hb0 : b0 < n)
    (h1 : b0 ≤ e_i) (h2 : e_i < t_i) (h3 : t_i < b0 + n) (hw : w < n)
    (hmove : (if w < e_i then w + n else w) ≤ e_i ∨ t_i < (if w < e_i then w + n else w)) :
    ∃ s, s < cdist n w (t_i % n) ∧ (w + s) % n = e_i % n := by
  have htn : t_i % n < n := Nat.mod_lt _ hn
  by_cases hcase : w < e_i
  · rw [if_pos hcase] at hmove
    rcases hmove with hm | hm
    · -- wrapped want, hole representative at distance e_i - n - w
      have hein : n ≤ e_i := by omega
      have htin : n ≤ t_i := by omega
      have htmod : t_i % n = t_i - n := mod_sub_n htin (by omega)
      have hD : t_i - n - w = cdist n w (t_i % n) := by
        apply cdist_unique n w (t_i % n) _ hn hw htn (by omega)
        have hsum : w + (t_i - n - w) = t_i - n := by omega
        rw [hsum, Nat.mod_eq_of_lt (by omega), htmod]
      refine ⟨e_i - n - w, by omega, ?_⟩
      have hsum : w + (e_i - n - w) = e_i - n := by omega
      rw [hsum, Nat.mod_eq_of_lt (by omega), mod_sub_n hein (by omega)]
    · -- wrapped want beyond the test index
      refine ⟨e_i - w, ?_, ?_⟩
      · have hD : t_i - w = cdist n w (t_i % n) := by
          apply cdist_unique n w (t_i % n) _ hn hw htn (by omega)
          have hsum : w + (t_i - w) = t_i := by omega
          rw [hsum]
        omega
      · have hsum : w + (e_i - w) = e_i := by omega
        rw [hsum]
  · rw [if_neg hcase] at hmove
    rcases hmove with hm | hm
    · -- the node's home is exactly the hole's bucket
      have hwe : w = e_i := by omega
      refine ⟨0, ?_, by rw [Nat.add_zero, hwe]⟩
      rcases Nat.eq_zero_or_pos (cdist n w (t_i % n)) with hd0 | hd0
      · exfalso
        have hspec := cdist_spec n w (t_i % n) hn hw htn
        rw [hd0, Nat.add_zero, Nat.mod_eq_of_lt hw] at hspec
        have hmod : w % n = t_i % n := by rw [Nat.mod_eq_of_lt hw, hspec]
        have := modeq_window n w t_i hmod (by omega) (by omega)
        omega
      · exact hd0
    · -- unwrapped want beyond the test index
      have htw : t_i < w := hm
      have htn' : t_i % n = t_i := Nat.mod_eq_of_lt (by omega)
      have hD : t_i + n - w = cdist n w (t_i % n) := by
        apply cdist_unique n w (t_i % n) _ hn hw htn (by omega)
        have hsum : w + (t_i + n - w) = t_i + n := by omega
        rw [hsum, Nat.add_mod_right, htn']
      refine ⟨e_i + n - w, by omega, ?_⟩
      have hsum : w + (e_i + n - w) = e_i + n := by omega
      rw [hsum, Nat.add_mod_right]

/-- If the keep condition of the erase loop holds, the hole's bucket is not
on the kept node's probe path. -/
theorem hole_not_in_path (n b0 e_i t_i w : Nat) (hn : 0 < n) (hb0 : b0 < n)
    (h1 : b0 ≤ e_i) (h2 : e_i < t_i) (h3 : t_i < b0 + n) (hw : w < n)
    (hkeep1 : e_i < (if w < e_i then w + n else w))
    (hkeep2 : (if w < e_i then w + n else w) ≤ t_i) :
    ∀ s, s < cdist n w (t_i % n) → (w + s) % n ≠ e_i % n := by
  have htn : t_i % n < n := Nat.mod_lt _ hn
  set W := if w < e_i then w + n else w with hW
  have hWmod : ∀ s, (W + s) % n = (w + s) % n := by
    intro s
    rw [hW]
    by_cases hc : w < e_i
    · rw [if_pos hc]
      have : w + n + s = w + s + n := by omega
      rw [this, Nat.add_mod_right]
    · rw [if_neg hc]
  have hD : t_i - W = cdist n w (t_i % n) := by
    apply cdist_unique n w (t_i % n) _ hn hw htn (by omega)
    have h4 : (w + (t_i - W)) % n = (W + (t_i - W)) % n := (hWmod (t_i - W)).symm
    rw [h4]
    have hsum : W + (t_i - W) = t_i := by omega
    rw [hsum]
  intro s hs heq
  rw [← hD] at hs
  have hWs : (W + s) % n = e_i % n := by rw [hWmod s, heq]
  have := modeq_window n e_i (W + s) hWs.symm (by omega) (by omega)
  omega

/-- Core counting argument: if a probe path (all of whose buckets are
occupied in `B`) contains the bucket of the test index while the scanned run
up to the test index is also occupied, the whole table is occupied —
contradicting the existence of an empty bucket. -/
theorem full_table_contra (n b0 t_i u_j w L : Nat) (occ : Nat → Prop) (hn : 0 < n)
    (hb0 : b0 < n)
    (hb0u : b0 ≤ u_j) (hut : u_j < t_i) (ht : t_i < b0 + n) (hw : w < n)
    (hL : L < n)
    (hLd : (w + L) % n = u_j % n)
    (hmem : ∃ t, t < L ∧ (w + t) % n = t_i % n)
    (hpath : ∀ t, t < L → occ ((w + t) % n))
    (hrun : ∀ u, b0 ≤ u → u ≤ t_i → occ (u % n))
    (hne : ∃ j, j < n ∧ ¬ occ j) :
    False := by
  have hwrep : ∀ t, (u_j + n - L + t) % n = (w + t) % n := by
    intro t
    apply mod_add_right_eq
    have h5 := mod_add_right_eq hLd (n - L)
    have h6 : w + L + (n - L) = w + n := by omega
    have h7 : u_j + (n - L) = u_j + n - L := by omega
    rw [h6, h7, Nat.add_mod_right] at h5
    exact h5.symm
  have habs : ∀ x, u_j + n - L ≤ x → x < u_j + n → occ (x % n) := by
    intro x hx1 hx2
    have hsum : u_j + n - L + (x - (u_j + n - L)) = x := by omega
    have heq := hwrep (x - (u_j + n - L))
    rw [hsum] at heq
    rw [heq]
    exact hpath _ (by omega)
  obtain ⟨t', ht', heq'⟩ := hmem
  have htrep : u_j + n - L ≤ t_i := by
    have hx : (u_j + n - L + t') % n = t_i % n := by rw [hwrep t', heq']
    rcases Nat.le_total (u_j + n - L + t') t_i with hle | hle
    · have := modeq_window n (u_j + n - L + t') t_i hx hle (by omega)
      omega
    · have := modeq_window n t_i (u_j + n - L + t') hx.symm hle (by omega)
      omega
  obtain ⟨je, hje, hempty⟩ := hne
  by_cases hc : b0 ≤ je
  · rcases Nat.le_total je t_i with hle | hle
    · exact hempty (by have := hrun je hc hle; rwa [Nat.mod_eq_of_lt hje] at this)
    · apply hempty
      have := habs je (by omega) (by omega)
      rwa [Nat.mod_eq_of_lt hje] at this
  · rcases Nat.le_total (je + n) t_i with hle | hle
    · apply hempty
      have := hrun (je + n) (by omega) hle
      rwa [Nat.add_mod_right, Nat.mod_eq_of_lt hje] at this
    · apply hempty
      have := habs (je + n) (by omega) (by omega)
      rwa [Nat.add_mod_right, Nat.mod_eq_of_lt hje] at this

/-- At the final empty test bucket: a stored node whose probe path contains
the hole's bucket and which sits beyond the test index must have the test
bucket on its path or be the test bucket itself. -/
theorem stop_on_path (n e_i t_i u_j w L : Nat) (hn : 0 < n)
    (h2 : e_i < t_i) (hut : t_i ≤ u_j) (hlt : u_j < e_i + n)
    (hw : w < n) (hL : L < n) (hLd : (w + L) % n = u_j % n)
    (hmem : ∃ s, s < L ∧ (w + s) % n = e_i % n) :
    (∃ t, t < L ∧ (w + t) % n = t_i % n) ∨ t_i % n = u_j % n := by
  obtain ⟨s, hs, hseq⟩ := hmem
  have hwrep : ∀ t, (u_j + n - L + t) % n = (w + t) % n := by
    intro t
    apply mod_add_right_eq
    have h5 := mod_add_right_eq hLd (n - L)
    have h6 : w + L + (n - L) = w + n := by omega
    have h7 : u_j + (n - L) = u_j + n - L := by omega
    rw [h6, h7, Nat.add_mod_right] at h5
    exact h5.symm
  have hxs : u_j + n - L + s = e_i + n := by
    have hx : (u_j + n - L + s) % n = e_i % n := by rw [hwrep s, hseq]
    have hx2 : (u_j + n - L + s) % n = (e_i + n) % n := by rw [hx, Nat.add_mod_right]
    have hb1 : u_j < u_j + n - L + s := by omega
    have hb2 : u_j + n - L + s < u_j + n := by omega
    rcases Nat.le_total (u_j + n - L + s) (e_i + n) with hle | hle
    · exact modeq_window n (u_j + n - L + s) (e_i + n) hx2 hle (by omega)
    · exact (modeq_window n (e_i + n) (u_j + n - L + s) hx2.symm hle (by omega)).symm
  rcases Nat.eq_or_lt_of_le hut with heq | hlt2
  · right
    rw [heq]
  · left
    refine ⟨s + (t_i - e_i), by omega, ?_⟩
    rw [← hwrep (s + (t_i - e_i))]
    have hsum : u_j + n - L + (s + (t_i - e_i)) = t_i + n := by omega
    rw [hsum, Nat.add_mod_right]

theorem bucket_ne {n e_i t_i : Nat} (hn : 0 < n) (h2 : e_i < t_i) (h3 : t_i < e_i + n) :
    e_i % n ≠ t_i % n := by
  intro h
  have := modeq_window n e_i t_i h (by omega) h3
  omega

theorem test_bucket_eq {n t_i : Nat} (hn : 0 < n) (h : t_i < n + n) :
    (if n ≤ t_i then t_i - n else t_i) = t_i % n := by
  by_cases hc : n ≤ t_i
  · rw [if_pos hc]
    exact (mod_sub_n hc h).symm
  · rw [if_neg hc]
    exact (Nat.mod_eq_of_lt (by omega)).symm

theorem eraseLoop_stop {V : Type} (hf : Nat → Nat) (nodes : List (Slot V))
    (e_i e_b t_i fuel tb : Nat)
    (htb : tb = if nodes.length ≤ t_i then t_i - nodes.length else t_i)
    (h : nodes.getD tb none = none) :
    eraseLoop hf nodes e_i e_b t_i (fuel + 1) = nodes := by
  simp only [eraseLoop]
  rw [← htb, h]

theorem eraseLoop_move {V : Type} (hf : Nat → Nat) (nodes : List (Slot V))
    (e_i e_b t_i fuel tb : Nat) (k' : Nat) (v' : V)
    (htb : tb = if nodes.length ≤ t_i then t_i - nodes.length else t_i)
    (h : nodes.getD tb none = some (k', v'))
    (hcond : (if hf k' % nodes.length < e_i then hf k' % nodes.length + nodes.length
        else hf k' % nodes.length) ≤ e_i
      ∨ t_i < (if hf k' % nodes.length < e_i then hf k' % nodes.length + nodes.length
        else hf k' % nodes.length)) :
    eraseLoop hf nodes e_i e_b t_i (fuel + 1)
      = eraseLoop hf ((nodes.set tb none).set e_b (some (k', v'))) t_i tb (t_i + 1) fuel := by
  simp only [eraseLoop]
  rw [← htb, h]
  exact if_pos hcond

theorem eraseLoop_keep {V : Type} (hf : Nat → Nat) (nodes : List (Slot V))
    (e_i e_b t_i fuel tb : Nat) (k' : Nat) (v' : V)
    (htb : tb = if nodes.length ≤ t_i then t_i - nodes.length else t_i)
    (h : nodes.getD tb none = some (k', v'))
    (hcond : ¬((if hf k' % nodes.length < e_i then hf k' % nodes.length + nodes.length
        else hf k' % nodes.length) ≤ e_i
      ∨ t_i < (if hf k' % nodes.length < e_i then hf k' % nodes.length + nodes.length
        else hf k' % nodes.length))) :
    eraseLoop hf nodes e_i e_b t_i (fuel + 1)
      = eraseLoop hf nodes e_i e_b (t_i + 1) fuel := by
  simp only [eraseLoop]
  rw [← htb, h]
  exact if_neg hcond

/-- Correctness of the backward-shift loop of `erase(Iterator)`
(`FlatHashMap.h:312-332`): started on a table that differs from the
well-formed pre-erase table `B` only by one travelling hole, it terminates on
a bucket that was already empty in `B`, leaving a table with the same stored
entries as `B` minus the erased bucket `b0`, exactly one more empty bucket
than `B`, no duplicate keys, and the full linear-probing reachability
invariant restored. -/
theorem eraseLoop_spec {V : Type} (hf : Nat → Nat) (B : List (Slot V)) (b0 : Nat)
    (hn : 0 < B.length) (hb0 : b0 < B.length)
    (hBempty : ∃ j, j < B.length ∧ B.getD j none = none) :
    ∀ (fuel : Nat) (A : List (Slot V)) (e_i e_b t_i : Nat),
      A.length = B.length →
      e_b = e_i % B.length →
      b0 ≤ e_i → e_i < t_i → t_i < b0 + B.length → b0 + B.length ≤ t_i + fuel →
      A.getD e_b none = none →
      B.getD e_b none ≠ none →
      (∀ u, t_i ≤ u → u < b0 + B.length →
        A.getD (u % B.length) none = B.getD (u % B.length) none) →
      (∀ j, j < B.length → (A.getD j none = none ↔ (B.getD j none = none ∨ j = e_b))) →
      (∀ p : Nat × V, (∃ j, j < B.length ∧ A.getD j none = some p)
        ↔ (∃ j, j < B.length ∧ (B.set b0 none).getD j none = some p)) →
      (∀ i, i < B.length → ∀ j, j < B.length → ∀ e ∈ A.getD i none,
        ∀ e' ∈ A.getD j none, e.1 = e'.1 → i = j) →
      (∀ j, j < B.length → ∀ e ∈ A.getD j none,
        ∀ t, t < cdist B.length (hf e.1 % B.length) j →
          B.getD ((hf e.1 % B.length + t) % B.length) none ≠ none) →
      (∀ j, j < B.length → ∀ e ∈ A.getD j none,
        (∃ u, b0 ≤ u ∧ u < t_i ∧ u % B.length = j) →
        ¬∃ s, s < cdist B.length (hf e.1 % B.length) j ∧
          (hf e.1 % B.length + s) % B.length = e_b) →
      (∀ u, b0 ≤ u → u < t_i → B.getD (u % B.length) none ≠ none) →
      (∃ d, t_i + d < b0 + B.length ∧ B.getD ((t_i + d) % B.length) none = none) →
      ∃ fb, fb < B.length ∧ B.getD fb none ≠ none ∧
        (eraseLoop hf A e_i e_b t_i fuel).length = B.length ∧
        (∀ j, j < B.length → ((eraseLoop hf A e_i e_b t_i fuel).getD j none = none
          ↔ (B.getD j none = none ∨ j = fb))) ∧
        (∀ p : Nat × V,
          (∃ j, j < B.length ∧ (eraseLoop hf A e_i e_b t_i fuel).getD j none = some p)
          ↔ (∃ j, j < B.length ∧ (B.set b0 none).getD j none = some p)) ∧
        (∀ i, i < B.length → ∀ j, j < B.length →
          ∀ e ∈ (eraseLoop hf A e_i e_b t_i fuel).getD i none,
          ∀ e' ∈ (eraseLoop hf A e_i e_b t_i fuel).getD j none, e.1 = e'.1 → i = j) ∧
        (∀ j, j < B.length → ∀ e ∈ (eraseLoop hf A e_i e_b t_i fuel).getD j none,
          ∀ t, t < cdist B.length (hf e.1 % B.length) j →
            (eraseLoop hf A e_i e_b t_i fuel).getD
              ((hf e.1 % B.length + t) % B.length) none ≠ none) := by
  intro fuel
  induction fuel with
  | zero =>
    intro A e_i e_b t_i hlen he_b hb0e het htlt hfuel hAe hBe huntouched hempties hcontent
      hnodup hpath hclean hrun hterm
    omega
  | succ fuel ih =>
    intro A e_i e_b t_i hlen he_b hb0e het htlt hfuel hAe hBe huntouched hempties hcontent
      hnodup hpath hclean hrun hterm
    have he_blt : e_b < B.length := by rw [he_b]; exact Nat.mod_lt _ hn
    have ht_blt : t_i % B.length < B.length := Nat.mod_lt _ hn
    have hebtb : e_b ≠ t_i % B.length := by
      rw [he_b]
      exact bucket_ne hn het (by omega)
    have htb : t_i % B.length = if A.length ≤ t_i then t_i - A.length else t_i := by
      rw [hlen]
      exact (test_bucket_eq hn (by omega)).symm
    have hAtB : A.getD (t_i % B.length) none = B.getD (t_i % B.length) none :=
      huntouched t_i (Nat.le_refl _) htlt
    rcases hslot : A.getD (t_i % B.length) none with _ | kv
    · -- STOP: the tested bucket is empty, the loop returns the current table
      rw [eraseLoop_stop hf A e_i e_b t_i fuel (t_i % B.length) htb hslot]
      refine ⟨e_b, he_blt, hBe, hlen, hempties, hcontent, hnodup, ?_⟩
      intro j hj e he t ht
      intro hApos
      have hcases := (hempties _ (Nat.mod_lt _ hn)).mp hApos
      rcases hcases with hB | hEb
      · exact hpath j hj e he t ht hB
      · -- the hole would lie on the probe path of the stored node at `j`
        have hBt : B.getD (t_i % B.length) none = none := by
          have hAt : A.getD (t_i % B.length) none = none := hslot
          rcases (hempties _ ht_blt).mp hAt with hB | hEb'
          · exact hB
          · exact absurd hEb'.symm hebtb
        have hunscanned : ∀ u, b0 ≤ u → u < t_i → u % B.length ≠ j := by
          intro u hu1 hu2 hj'
          exact hclean j hj e he ⟨u, hu1, hu2, hj'⟩ ⟨t, ht, hEb⟩
        have hrepj : ∃ u_j, t_i ≤ u_j ∧ u_j < b0 + B.length ∧ u_j % B.length = j := by
          by_cases hc : b0 ≤ j
          · refine ⟨j, ?_, by omega, Nat.mod_eq_of_lt hj⟩
            by_contra hlt
            exact hunscanned j hc (by omega) (Nat.mod_eq_of_lt hj)
          · refine ⟨j + B.length, ?_, by omega, ?_⟩
            · by_contra hlt
              exact hunscanned (j + B.length) (by omega) (by omega)
                (by rw [Nat.add_mod_right]; exact Nat.mod_eq_of_lt hj)
            · rw [Nat.add_mod_right]
              exact Nat.mod_eq_of_lt hj
        obtain ⟨u_j, hu1, hu2, hu3⟩ := hrepj
        have hstop := stop_on_path B.length e_i t_i u_j (hf e.1 % B.length)
          (cdist B.length (hf e.1 % B.length) j) hn het hu1 (by omega)
          (Nat.mod_lt _ hn) (cdist_lt _ _ _ hn)
          (by rw [cdist_spec _ _ _ hn (Nat.mod_lt _ hn) hj, hu3])
          ⟨t, ht, by rw [hEb, he_b]⟩
        rcases hstop with ⟨t', ht', heq'⟩ | heq
        · exact hpath j hj e he t' ht' (by rw [heq']; exact hBt)
        · have hjeq : t_i % B.length = j := by rw [heq, hu3]
          have hAj : A.getD j none = none := by
            rw [← hjeq]
            exact hslot
          rw [hAj] at he
          cases he
    · -- the tested bucket holds a node
      obtain ⟨k', v'⟩ := kv
      have hBt : B.getD (t_i % B.length) none ≠ none := by
        rw [← hAtB, hslot]
        intro h
        cases h
      have hterm1 : ∃ d, 1 ≤ d ∧ t_i + d < b0 + B.length
          ∧ B.getD ((t_i + d) % B.length) none = none := by
        obtain ⟨d, hd1, hd2⟩ := hterm
        rcases Nat.eq_zero_or_pos d with h0 | h0
        · rw [h0, Nat.add_zero] at hd2
          exact absurd hd2 hBt
        · exact ⟨d, h0, hd1, hd2⟩
      obtain ⟨d, hd0, hd1, hd2⟩ := hterm1
      have hwlt : hf k' % B.length < B.length := Nat.mod_lt _ hn
      have hrun' : ∀ u, b0 ≤ u → u < t_i + 1 → B.getD (u % B.length) none ≠ none := by
        intro u hu1 hu2
        rcases Nat.lt_or_ge u t_i with hc | hc
        · exact hrun u hu1 hc
        · have hu : u = t_i := by omega
          rw [hu]
          exact hBt
      have hterm' : ∃ d', t_i + 1 + d' < b0 + B.length
          ∧ B.getD ((t_i + 1 + d') % B.length) none = none := by
        refine ⟨d - 1, by omega, ?_⟩
        have hsum : t_i + 1 + (d - 1) = t_i + d := by omega
        rw [hsum]
        exact hd2
      by_cases hmove : (if hf k' % A.length < e_i then hf k' % A.length + A.length
          else hf k' % A.length) ≤ e_i
        ∨ t_i < (if hf k' % A.length < e_i then hf k' % A.length + A.length
          else hf k' % A.length)
      · -- MOVE: the node shifts into the hole, the hole advances
        rw [eraseLoop_move hf A e_i e_b t_i fuel (t_i % B.length) k' v' htb hslot hmove]
        rw [hlen] at hmove
        obtain ⟨s, hs, hseq⟩ := hole_in_path B.length b0 e_i t_i (hf k' % B.length)
          hn hb0 hb0e het htlt hwlt hmove
        have hsd : s = cdist B.length (hf k' % B.length) e_b := by
          apply cdist_unique _ _ _ _ hn hwlt he_blt
            (by have := cdist_lt B.length (hf k' % B.length) (t_i % B.length) hn; omega)
          rw [hseq, he_b]
        have hA'len : ((A.set (t_i % B.length) none).set e_b (some (k', v'))).length
            = B.length := by
          rw [List.length_set, List.length_set, hlen]
        have hA'ebv : ((A.set (t_i % B.length) none).set e_b (some (k', v'))).getD e_b none
            = some (k', v') := by
          exact getD_set_self _ _ _ (by rw [List.length_set, hlen]; exact he_blt)
        have hA'tb : ((A.set (t_i % B.length) none).set e_b
            (some (k', v'))).getD (t_i % B.length) none = none := by
          rw [getD_set_ne _ _ _ _ hebtb]
          exact getD_set_self _ _ _ (by rw [hlen]; exact ht_blt)
        have hA'other : ∀ j, j ≠ e_b → j ≠ t_i % B.length →
            ((A.set (t_i % B.length) none).set e_b (some (k', v'))).getD j none
              = A.getD j none := by
          intro j hj1 hj2
          rw [getD_set_ne _ _ _ _ (fun h => hj1 h.symm),
            getD_set_ne _ _ _ _ (fun h => hj2 h.symm)]
        have hpath' : ∀ j, j < B.length →
            ∀ e ∈ ((A.set (t_i % B.length) none).set e_b (some (k', v'))).getD j none,
            ∀ t, t < cdist B.length (hf e.1 % B.length) j →
              B.getD ((hf e.1 % B.length + t) % B.length) none ≠ none := by
          intro j hj e he t ht
          by_cases hj1 : j = e_b
          · subst hj1
            rw [hA'ebv] at he
            have hek : e.1 = k' := by
              cases he
              rfl
            rw [hek] at ht ⊢
            rw [← hsd] at ht
            have ht' : t < cdist B.length (hf k' % B.length) (t_i % B.length) := by omega
            exact hpath (t_i % B.length) ht_blt (k', v') (by rw [hslot]; rfl) t ht'
          · by_cases hj2 : j = t_i % B.length
            · subst hj2
              rw [hA'tb] at he
              cases he
            · rw [hA'other j hj1 hj2] at he
              exact hpath j hj e he t ht
        refine ih ((A.set (t_i % B.length) none).set e_b (some (k', v'))) t_i
          (t_i % B.length) (t_i + 1) hA'len rfl (by omega) (by omega) (by omega) (by omega)
          hA'tb hBt ?_ ?_ ?_ ?_ hpath' ?_ hrun' hterm'
        · -- untouched region
          intro u hu1 hu2
          have hne1 : u % B.length ≠ e_b := by
            rw [he_b]
            intro h
            have := modeq_window B.length e_i u h.symm (by omega) (by omega)
            omega
          have hne2 : u % B.length ≠ t_i % B.length := by
            intro h
            have := modeq_window B.length t_i u h.symm (by omega) (by omega)
            omega
          rw [hA'other _ hne1 hne2]
          exact huntouched u (by omega) hu2
        · -- empties: the hole is now at the tested bucket
          intro j hj
          by_cases hj1 : j = e_b
          · subst hj1
            rw [hA'ebv]
            constructor
            · intro h
              exact Option.noConfusion h
            · rintro (hB | hEb')
              · exact absurd hB hBe
              · exact absurd hEb' hebtb
          · by_cases hj2 : j = t_i % B.length
            · subst hj2
              rw [hA'tb]
              constructor
              · intro _
                exact Or.inr rfl
              · intro _
                rfl
            · rw [hA'other j hj1 hj2, hempties j hj]
              constructor
              · rintro (hB | hEb')
                · exact Or.inl hB
                · exact absurd hEb' hj1
              · rintro (hB | hEb')
                · exact Or.inl hB
                · exact absurd hEb' hj2
        · -- stored entries are preserved by the move
          intro p
          rw [← hcontent p]
          constructor
          · rintro ⟨j, hj, hjp⟩
            by_cases hj1 : j = e_b
            · subst hj1
              rw [hA'ebv] at hjp
              refine ⟨t_i % B.length, ht_blt, ?_⟩
              rw [hslot, hjp]
            · by_cases hj2 : j = t_i % B.length
              · subst hj2
                rw [hA'tb] at hjp
                exact absurd hjp (Option.noConfusion)
              · rw [hA'other j hj1 hj2] at hjp
                exact ⟨j, hj, hjp⟩
          · rintro ⟨j, hj, hjp⟩
            by_cases hj2 : j = t_i % B.length
            · subst hj2
              rw [hslot] at hjp
              refine ⟨e_b, he_blt, ?_⟩
              rw [hA'ebv, hjp]
            · by_cases hj1 : j = e_b
              · subst hj1
                rw [hAe] at hjp
                exact absurd hjp (Option.noConfusion)
              · refine ⟨j, hj, ?_⟩
                rw [hA'other j hj1 hj2]
                exact hjp
        · -- no duplicate keys after the move
          intro i hi j hj e he e' he' hkey
          by_cases hi1 : i = e_b
          · by_cases hj1 : j = e_b
            · rw [hi1, hj1]
            · exfalso
              subst hi1
              rw [hA'ebv] at he
              have he2 : e = (k', v') := by
                cases he
                rfl
              by_cases hj2 : j = t_i % B.length
              · subst hj2
                rw [hA'tb] at he'
                cases he'
              · rw [hA'other j hj1 hj2] at he'
                have := hnodup (t_i % B.length) ht_blt j hj (k', v')
                  (by rw [hslot]; rfl) e' he' (by rw [← he2]; exact hkey)
                exact hj2 this.symm
          · by_cases hj1 : j = e_b
            · exfalso
              subst hj1
              rw [hA'ebv] at he'
              have he2 : e' = (k', v') := by
                cases he'
                rfl
              by_cases hi2 : i = t_i % B.length
              · subst hi2
                rw [hA'tb] at he
                cases he
              · rw [hA'other i hi1 hi2] at he
                have := hnodup i hi (t_i % B.length) ht_blt e he (k', v')
                  (by rw [hslot]; rfl) (by rw [he2] at hkey; exact hkey)
                exact hi2 this
            · by_cases hi2 : i = t_i % B.length
              · subst hi2
                rw [hA'tb] at he
                cases he
              · by_cases hj2 : j = t_i % B.length
                · subst hj2
                  rw [hA'tb] at he'
                  cases he'
                · rw [hA'other i hi1 hi2] at he
                  rw [hA'other j hj1 hj2] at he'
                  exact hnodup i hi j hj e he e' he' hkey
        · -- scanned nodes never have the new hole on their path
          intro j hj e he hscanned hhit
          obtain ⟨u_j, hu1, hu2, hu3⟩ := hscanned
          have hjtb : j ≠ t_i % B.length := by
            intro h
            rw [h, hA'tb] at he
            cases he
          have hu2' : u_j < t_i := by
            rcases Nat.lt_or_ge u_j t_i with h | h
            · exact h
            · exfalso
              have hu : u_j = t_i := by omega
              rw [hu] at hu3
              exact hjtb hu3.symm
          obtain ⟨je, hje, hjempty⟩ := hBempty
          exact full_table_contra B.length b0 t_i u_j (hf e.1 % B.length)
            (cdist B.length (hf e.1 % B.length) j)
            (fun m => B.getD m none ≠ none) hn hb0 hu1 hu2' htlt (Nat.mod_lt _ hn)
            (cdist_lt _ _ _ hn)
            (by rw [cdist_spec _ _ _ hn (Nat.mod_lt _ hn) hj, hu3])
            (by obtain ⟨s', hs', hseq'⟩ := hhit
                exact ⟨s', hs', hseq'⟩)
            (fun t ht => hpath' j hj e he t ht)
            (fun u h1 h2 => hrun' u h1 (by omega))
            ⟨je, hje, fun h => h hjempty⟩
      · -- KEEP: the node stays, the scan advances past it
        rw [eraseLoop_keep hf A e_i e_b t_i fuel (t_i % B.length) k' v' htb hslot hmove]
        rw [hlen] at hmove
        push_neg at hmove
        obtain ⟨hk1, hk2⟩ := hmove
        refine ih A e_i e_b (t_i + 1) hlen he_b hb0e (by omega) (by omega) (by omega)
          hAe hBe ?_ hempties hcontent hnodup hpath ?_ hrun' hterm'
        · intro u hu1 hu2
          exact huntouched u (by omega) hu2
        · -- the kept node passes the keep test, so the hole avoids its path
          intro j hj e he hscanned hhit
          obtain ⟨u_j, hu1, hu2, hu3⟩ := hscanned
          rcases Nat.lt_or_ge u_j t_i with hc | hc
          · exact hclean j hj e he ⟨u_j, hu1, hc, hu3⟩ hhit
          · have hu : u_j = t_i := by omega
            have hjtb : j = t_i % B.length := by rw [← hu3, hu]
            subst hjtb
            rw [hslot] at he
            have he2 : e = (k', v') := by
              cases he
              rfl
            obtain ⟨s', hs', hseq'⟩ := hhit
            rw [he2] at hs' hseq'
            refine hole_not_in_path B.length b0 e_i t_i (hf k' % B.length) hn hb0 hb0e het
              htlt hwlt hk1 hk2 s' hs' ?_
            rw [hseq', he_b]

theorem erase_spec {V : Type} (hf : Nat → Nat) (m : FlatHashMapImpl V) (k : Nat) (v : V)
    (b0 : Nat) (hwf : WF hf m) (hb0 : b0 < m.nodes.length)
    (hslot : m.nodes.getD b0 none = some (k, v)) :
    WF hf (erase hf m k) ∧
    (erase hf m k).nodes.length = m.nodes.length ∧
    (∀ p : Nat × V,
      (∃ j, j < m.nodes.length ∧ (erase hf m k).nodes.getD j none = some p)
      ↔ (p.1 ≠ k ∧ ∃ j, j < m.nodes.length ∧ m.nodes.getD j none = some p)) ∧
    (erase hf m k).used_nodes + 1 = m.used_nodes := by
  have hn := hwf.npos
  have hused0 : m.used_nodes ≠ 0 := by
    rw [hwf.used_eq]
    have := countOcc_pos m.nodes b0 hb0 (by rw [hslot]; rfl)
    omega
  obtain ⟨je, hje, hjempty⟩ := hwf.has_empty
  have hb0je : b0 ≠ je := by
    intro h
    rw [h, hjempty] at hslot
    exact Option.noConfusion hslot
  have hlen2 : 2 ≤ m.nodes.length := by omega
  have hbucket := find_bucket_of_stored hf m k v b0 hwf hb0 hslot
  have herase : erase hf m k =
      ⟨eraseLoop hf (m.nodes.set b0 none) b0 b0 (b0 + 1) m.nodes.length,
        m.used_nodes - 1⟩ := by
    rw [erase, if_neg hused0, hbucket]
    show (match m.nodes.getD b0 none with
      | none => m
      | some _ =>
        ({ nodes := eraseLoop hf (m.nodes.set b0 none) b0 b0 (b0 + 1) m.nodes.length,
           used_nodes := m.used_nodes - 1 } : FlatHashMapImpl V)) = _
    rw [hslot]
  have huntouched : ∀ u, b0 + 1 ≤ u → u < b0 + m.nodes.length →
      (m.nodes.set b0 none).getD (u % m.nodes.length) none
        = m.nodes.getD (u % m.nodes.length) none := by
    intro u hu1 hu2
    have hne : u % m.nodes.length ≠ b0 := by
      intro h
      have := modeq_window m.nodes.length b0 u
        (by rw [Nat.mod_eq_of_lt hb0, h]) (by omega) (by omega)
      omega
    exact getD_set_ne m.nodes b0 (u % m.nodes.length) none (Ne.symm hne)
  have hempties0 : ∀ j, j < m.nodes.length →
      ((m.nodes.set b0 none).getD j none = none
        ↔ (m.nodes.getD j none = none ∨ j = b0)) := by
    intro j hj
    by_cases hjb : j = b0
    · subst hjb
      rw [getD_set_self m.nodes j none hb0]
      exact ⟨fun _ => Or.inr rfl, fun _ => rfl⟩
    · rw [getD_set_ne m.nodes b0 j none (fun h => hjb h.symm)]
      constructor
      · exact Or.inl
      · rintro (h | h)
        · exact h
        · exact absurd h hjb
  have hcontent0 : ∀ p : Nat × V,
      (∃ j, j < m.nodes.length ∧ (m.nodes.set b0 none).getD j none = some p)
      ↔ (∃ j, j < m.nodes.length ∧ (m.nodes.set b0 none).getD j none = some p) :=
    fun _ => Iff.rfl
  have hnodup0 : ∀ i, i < m.nodes.length → ∀ j, j < m.nodes.length →
      ∀ e ∈ (m.nodes.set b0 none).getD i none,
      ∀ e' ∈ (m.nodes.set b0 none).getD j none, e.1 = e'.1 → i = j := by
    intro i hi j hj e he e' he' hk
    have hib : i ≠ b0 := by
      intro h
      rw [h, getD_set_self m.nodes b0 none hb0] at he
      cases he
    have hjb : j ≠ b0 := by
      intro h
      rw [h, getD_set_self m.nodes b0 none hb0] at he'
      cases he'
    rw [getD_set_ne m.nodes b0 i none (fun h => hib h.symm)] at he
    rw [getD_set_ne m.nodes b0 j none (fun h => hjb h.symm)] at he'
    exact hwf.nodup i hi j hj e he e' he' hk
  have hpath0 : ∀ j, j < m.nodes.length → ∀ e ∈ (m.nodes.set b0 none).getD j none,
      ∀ t, t < cdist m.nodes.length (hf e.1 % m.nodes.length) j →
        m.nodes.getD ((hf e.1 % m.nodes.length + t) % m.nodes.length) none ≠ none := by
    intro j hj e he t ht
    have hjb : j ≠ b0 := by
      intro h
      rw [h, getD_set_self m.nodes b0 none hb0] at he
      cases he
    rw [getD_set_ne m.nodes b0 j none (fun h => hjb h.symm)] at he
    exact hwf.probe_path j hj e he t ht
  have hclean0 : ∀ j, j < m.nodes.length → ∀ e ∈ (m.nodes.set b0 none).getD j none,
      (∃ u, b0 ≤ u ∧ u < b0 + 1 ∧ u % m.nodes.length = j) →
      ¬∃ s, s < cdist m.nodes.length (hf e.1 % m.nodes.length) j ∧
        (hf e.1 % m.nodes.length + s) % m.nodes.length = b0 := by
    intro j hj e he hscan
    obtain ⟨u, hu1, hu2, hu3⟩ := hscan
    have hub : u = b0 := by omega
    have hjb : j = b0 := by
      rw [← hu3, hub]
      exact Nat.mod_eq_of_lt hb0
    rw [hjb, getD_set_self m.nodes b0 none hb0] at he
    cases he
  have hrun0 : ∀ u, b0 ≤ u → u < b0 + 1 →
      m.nodes.getD (u % m.nodes.length) none ≠ none := by
    intro u hu1 hu2
    have hub : u = b0 := by omega
    rw [hub, Nat.mod_eq_of_lt hb0, hslot]
    exact fun h => Option.noConfusion h
  have hterm0 : ∃ d, b0 + 1 + d < b0 + m.nodes.length ∧
      m.nodes.getD ((b0 + 1 + d) % m.nodes.length) none = none := by
    rcases Nat.lt_or_ge b0 je with hc | hc
    · refine ⟨je - b0 - 1, by omega, ?_⟩
      have hje' : b0 + 1 + (je - b0 - 1) = je := by omega
      rw [hje', Nat.mod_eq_of_lt hje, hjempty]
    · have hc' : je < b0 := by omega
      refine ⟨je + m.nodes.length - b0 - 1, by omega, ?_⟩
      have hje' : b0 + 1 + (je + m.nodes.length - b0 - 1) = je + m.nodes.length := by
        omega
      rw [hje', Nat.add_mod_right, Nat.mod_eq_of_lt hje, hjempty]
  obtain ⟨fb, hfb, hfbocc, hRlen, hRempt, hRcont, hRnodup, hRpath⟩ :=
    eraseLoop_spec hf m.nodes b0 hn hb0 ⟨je, hje, hjempty⟩
      m.nodes.length (m.nodes.set b0 none) b0 b0 (b0 + 1)
      (by simp)
      (Nat.mod_eq_of_lt hb0).symm
      (Nat.le_refl b0)
      (Nat.lt_succ_self b0)
      (by omega)
      (by omega)
      (getD_set_self m.nodes b0 none hb0)
      (by rw [hslot]; exact fun h => Option.noConfusion h)
      huntouched hempties0 hcontent0 hnodup0 hpath0 hclean0 hrun0 hterm0
  have hsetchar : ∀ p : Nat × V,
      (∃ j, j < m.nodes.length ∧ (m.nodes.set b0 none).getD j none = some p)
      ↔ (p.1 ≠ k ∧ ∃ j, j < m.nodes.length ∧ m.nodes.getD j none = some p) := by
    intro p
    constructor
    · rintro ⟨j, hj, hjp⟩
      have hjb : j ≠ b0 := by
        intro h
        rw [h, getD_set_self m.nodes b0 none hb0] at hjp
        exact Option.noConfusion hjp
      rw [getD_set_ne m.nodes b0 j none (fun h => hjb h.symm)] at hjp
      refine ⟨?_, j, hj, hjp⟩
      intro hpk
      exact hjb (hwf.nodup j hj b0 hb0 p (by rw [hjp]; rfl) (k, v)
        (by rw [hslot]; rfl) hpk)
    · rintro ⟨hpk, j, hj, hjp⟩
      have hjb : j ≠ b0 := by
        intro h
        rw [h, hslot] at hjp
        have hp : (k, v) = p := Option.some.inj hjp
        exact hpk (by rw [← hp])
      refine ⟨j, hj, ?_⟩
      rw [getD_set_ne m.nodes b0 j none (fun h => hjb h.symm)]
      exact hjp
  have hnodes : (erase hf m k).nodes
      = eraseLoop hf (m.nodes.set b0 none) b0 b0 (b0 + 1) m.nodes.length := by
    rw [herase]
  have husede : (erase hf m k).used_nodes = m.used_nodes - 1 := by
    rw [herase]
  have hmemfb : fb ∈ (Finset.range m.nodes.length).filter
      (fun j => (m.nodes.getD j none).isSome) :=
    Finset.mem_filter.mpr ⟨Finset.mem_range.mpr hfb,
      Option.isSome_iff_ne_none.mpr hfbocc⟩
  have hcount : countOcc (eraseLoop hf (m.nodes.set b0 none) b0 b0 (b0 + 1)
      m.nodes.length) = m.used_nodes - 1 := by
    rw [countOcc, hRlen]
    have hfe : (Finset.range m.nodes.length).filter
        (fun j => ((eraseLoop hf (m.nodes.set b0 none) b0 b0 (b0 + 1)
          m.nodes.length).getD j none).isSome)
        = ((Finset.range m.nodes.length).filter
            (fun j => (m.nodes.getD j none).isSome)).erase fb := by
      apply Finset.ext
      intro j
      rw [Finset.mem_erase, Finset.mem_filter, Finset.mem_filter, Finset.mem_range]
      constructor
      · rintro ⟨hj, hj2⟩
        have hRne : (eraseLoop hf (m.nodes.set b0 none) b0 b0 (b0 + 1)
            m.nodes.length).getD j none ≠ none := Option.isSome_iff_ne_none.mp hj2
        have hBor : ¬(m.nodes.getD j none = none ∨ j = fb) := fun hor =>
          hRne ((hRempt j hj).mpr hor)
        push_neg at hBor
        exact ⟨hBor.2, hj, Option.isSome_iff_ne_none.mpr hBor.1⟩
      · rintro ⟨hjfb, hj, hjsome⟩
        refine ⟨hj, Option.isSome_iff_ne_none.mpr ?_⟩
        intro hnone
        rcases (hRempt j hj).mp hnone with hB | hfb'
        · exact (Option.isSome_iff_ne_none.mp hjsome) hB
        · exact hjfb hfb'
    have hcB : ((Finset.range m.nodes.length).filter
        (fun j => (m.nodes.getD j none).isSome)).card = m.used_nodes := by
      rw [hwf.used_eq]
      rfl
    rw [hfe, Finset.card_erase_of_mem hmemfb, hcB]
  refine ⟨⟨?_, ?_, ?_, ?_, ?_, ?_⟩, ?_, ?_, ?_⟩
  · rw [hnodes, hRlen]
    exact hn
  · intro j hj e he
    rw [hnodes, hRlen] at hj
    rw [hnodes] at he
    obtain ⟨j2, hj2, hj2p⟩ := (hRcont e).mp ⟨j, hj, Option.mem_def.mp he⟩
    have hj2b : j2 ≠ b0 := by
      intro h
      rw [h, getD_set_self m.nodes b0 none hb0] at hj2p
      exact Option.noConfusion hj2p
    rw [getD_set_ne m.nodes b0 j2 none (fun h => hj2b h.symm)] at hj2p
    exact hwf.keys_ne_zero j2 hj2 e (by rw [hj2p]; rfl)
  · intro i hi j hj e he e' he' hk
    rw [hnodes, hRlen] at hi hj
    rw [hnodes] at he he'
    exact hRnodup i hi j hj e he e' he' hk
  · intro j hj e he t ht
    rw [hnodes, hRlen] at hj ht
    rw [hnodes] at he
    rw [hnodes, hRlen]
    exact hRpath j hj e he t ht
  · refine ⟨fb, ?_, ?_⟩
    · rw [hnodes, hRlen]
      exact hfb
    · rw [hnodes]
      exact (hRempt fb hfb).mpr (Or.inr rfl)
  · rw [husede, hnodes, hcount]
  · rw [hnodes]
    exact hRlen
  · intro p
    rw [hnodes]
    exact (hRcont p).trans (hsetchar p)
  · rw [husede]
    omega

end FlatHashMapImpl

/-- C9: `FlatHashMapImpl::erase` preserves the open-addressing lookup invariant
(`FlatHashMap.h:303-333` with `find_bucket_for_insert`, `FlatHashMap.h:348-357`):
on a well-formed map that stores key `k`, after `erase(k)` a `find(k)` answers
`end()`, `find(k')` still returns the previously stored entry of every other
key `k'`, and `size()` decreases by exactly one. -/
theorem flatHashMap_erase_preserves_lookup {V : Type} (hf : Nat → Nat)
    (m : FlatHashMapImpl V) (k : Nat) (v : V) (b0 : Nat)
    (hwf : FlatHashMapImpl.WF hf m) (hb0 : b0 < m.nodes.length)
    (hstored : m.nodes.getD b0 none = some (k, v)) :
    FlatHashMapImpl.find hf (FlatHashMapImpl.erase hf m k) k = none ∧
    (∀ p : Nat × V, p.1 ≠ k → FlatHashMapImpl.find hf m p.1 = some p →
      FlatHashMapImpl.find hf (FlatHashMapImpl.erase hf m k) p.1 = some p) ∧
    FlatHashMapImpl.size (FlatHashMapImpl.erase hf m k) + 1
      = FlatHashMapImpl.size m := by
  obtain ⟨hWFe, hlen, hcont, hused⟩ :=
    FlatHashMapImpl.erase_spec hf m k v b0 hwf hb0 hstored
  refine ⟨?_, ?_, hused⟩
  · apply FlatHashMapImpl.find_of_not_stored hf (FlatHashMapImpl.erase hf m k) k hWFe
    intro j hj e he hek
    rw [hlen] at hj
    exact ((hcont e).mp ⟨j, hj, Option.mem_def.mp he⟩).1 hek
  · intro p hpk hfind
    obtain ⟨j, hj, hjp⟩ := FlatHashMapImpl.find_some_inv hf m p.1 p hwf.npos hfind
    obtain ⟨j2, hj2, hj2p⟩ := (hcont p).mpr ⟨hpk, j, hj, hjp⟩
    exact FlatHashMapImpl.find_of_stored hf (FlatHashMapImpl.erase hf m k) p.1 p.2 j2
      hWFe (by rw [hlen]; exact hj2) hj2p

/-- Witness for C9: the five-bucket map `[_, (1,10), (6,20), (11,30), _]` with
the identity hash stores keys `1`, `6`, `11` colliding on bucket `1`; erasing
key `1` satisfies all three conclusions. -/
theorem flatHashMap_erase_preserves_lookup_witness :
    FlatHashMapImpl.find (fun n => n) (FlatHashMapImpl.erase (fun n => n)
        (⟨[none, some (1, 10), some (6, 20), some (11, 30), none], 3⟩ :
          FlatHashMapImpl Nat) 1) 1 = none ∧
    (∀ p : Nat × Nat, p.1 ≠ 1 →
      FlatHashMapImpl.find (fun n => n)
        (⟨[none, some (1, 10), some (6, 20), some (11, 30), none], 3⟩ :
          FlatHashMapImpl Nat) p.1 = some p →
      FlatHashMapImpl.find (fun n => n) (FlatHashMapImpl.erase (fun n => n)
        (⟨[none, some (1, 10), some (6, 20), some (11, 30), none], 3⟩ :
          FlatHashMapImpl Nat) 1) p.1 = some p) ∧
    FlatHashMapImpl.size (FlatHashMapImpl.erase (fun n => n)
      (⟨[none, some (1, 10), some (6, 20), some (11, 30), none], 3⟩ :
        FlatHashMapImpl Nat) 1) + 1
      = FlatHashMapImpl.size
        (⟨[none, some (1, 10), some (6, 20), some (11, 30), none], 3⟩ :
          FlatHashMapImpl Nat) :=
  flatHashMap_erase_preserves_lookup (fun n => n)
    (⟨[none, some (1, 10), some (6, 20), some (11, 30), none], 3⟩ :
      FlatHashMapImpl Nat) 1 10 1
    ⟨by decide, by decide, by decide, by decide, by decide, by decide⟩
    (by decide) (by decide)

end Td
